import Mathlib

/-!
# Technical indicator engine (`frontend/src/utils/chartUtils.js`)

A shallow embedding of the two exported functions `sma` and `rsi`.

Modelling conventions.

* A JavaScript number is a `JSNumber`: a finite value (carried as the rational it
  denotes), `NaN`, `Infinity` or `-Infinity`.  Every arithmetic operation
  computes the exact result and rounds it with `roundDouble`, the IEEE-754
  binary64 rounding (nearest, ties to even, gradual underflow, overflow to an
  infinity).
* The two zeros are identified.  The sign of a zero is observable only through
  a division by it, and every zero divisor that this code can meet (`window`,
  `period`, `1 + rs`) is a positive zero, which is what `JSNumber.div` assumes.
* The input `values` is a `List ℚ`: the values of the doubles held by the
  array.  A statement that needs them to be doubles says so with `IsDouble`.
* `window` and `period` are integers (`Int`), used as numbers without
  rounding (every integer below `2^53` in magnitude is a double).  The source
  performs no validation of them, and the behaviour for non-positive values is
  part of what is studied below.
* A JavaScript array is an unbounded `List` (the cap of `2^32 - 1` elements is
  not modelled); `null` is `none`.
* A thrown exception is `Except.error`.
-/

namespace ChartUtils

/-! ## JavaScript numbers -/

/-- A JavaScript number: finite, `NaN`, `Infinity` or `-Infinity`. -/
inductive JSNumber where
  | fin (q : ℚ)
  | nan
  | posInf
  | negInf
  deriving DecidableEq

/-- Rounding of a rational to the nearest integer, a tie going to the even
one. -/
def roundHalfEven (t : ℚ) : ℤ :=
  if t - (⌊t⌋ : ℤ) < 1 / 2 then ⌊t⌋
  else if 1 / 2 < t - (⌊t⌋ : ℤ) then ⌊t⌋ + 1
  else if ⌊t⌋ % 2 = 0 then ⌊t⌋ else ⌊t⌋ + 1

/-- The position of the leading binary digit of `n` (`0` for `n < 2`), found
with `fuel` halvings. -/
def bits : Nat → Nat → Nat
  | 0, _ => 0
  | fuel + 1, n => if n < 2 then 0 else bits fuel (n / 2) + 1

/-- The binary exponent of a non-zero rational: the `e` with
`2^e ≤ |x| < 2^(e+1)`. -/
def binade (x : ℚ) : ℤ :=
  if (2 : ℚ) ^ ((bits x.num.natAbs x.num.natAbs : ℤ) - (bits x.den x.den : ℤ)) ≤ |x| then
    (bits x.num.natAbs x.num.natAbs : ℤ) - (bits x.den x.den : ℤ)
  else (bits x.num.natAbs x.num.natAbs : ℤ) - (bits x.den x.den : ℤ) - 1

/-- The exponent of the spacing of the doubles around `x`: 52 binary places
below the leading digit, and never below `-1074` (subnormal range). -/
def quantumExp (x : ℚ) : ℤ := max (binade x) (-1022) - 52

/-- The real number `x` rounded to a multiple of the spacing around it. -/
def roundToQuantum (x : ℚ) : ℚ :=
  (roundHalfEven (x / (2 : ℚ) ^ quantumExp x) : ℚ) * (2 : ℚ) ^ quantumExp x

/-- The IEEE-754 binary64 rounding of a real number: the nearest double, a tie
going to the even significand, and an infinity when the rounded magnitude
reaches `2^1024`. -/
def roundDouble (x : ℚ) : JSNumber :=
  if (2 : ℚ) ^ (1024 : ℕ) ≤ |roundToQuantum x| then
    (if 0 < roundToQuantum x then .posInf else .negInf)
  else .fin (roundToQuantum x)

/-- Being the value of a double: rounding leaves it unchanged. -/
def IsDouble (x : ℚ) : Prop := roundDouble x = .fin x

instance (x : ℚ) : Decidable (IsDouble x) := by
  unfold IsDouble
  exact inferInstance

namespace JSNumber

/-- Unary minus. -/
def neg : JSNumber → JSNumber
  | fin q => fin (-q)
  | nan => nan
  | posInf => negInf
  | negInf => posInf

/-- The `+` operator on numbers. -/
def add : JSNumber → JSNumber → JSNumber
  | fin a, fin b => roundDouble (a + b)
  | nan, _ => nan
  | _, nan => nan
  | posInf, negInf => nan
  | negInf, posInf => nan
  | posInf, _ => posInf
  | _, posInf => posInf
  | negInf, _ => negInf
  | _, negInf => negInf

/-- The binary `-` operator on numbers. -/
def sub (a b : JSNumber) : JSNumber := add a (neg b)

/-- The `*` operator on numbers. -/
def mul : JSNumber → JSNumber → JSNumber
  | fin a, fin b => roundDouble (a * b)
  | nan, _ => nan
  | _, nan => nan
  | posInf, fin b => if b = 0 then nan else if 0 < b then posInf else negInf
  | negInf, fin b => if b = 0 then nan else if 0 < b then negInf else posInf
  | fin a, posInf => if a = 0 then nan else if 0 < a then posInf else negInf
  | fin a, negInf => if a = 0 then nan else if 0 < a then negInf else posInf
  | posInf, posInf => posInf
  | negInf, negInf => posInf
  | posInf, negInf => negInf
  | negInf, posInf => negInf

/-- The `/` operator on numbers; a zero divisor is a positive zero. -/
def div : JSNumber → JSNumber → JSNumber
  | fin a, fin b =>
      if b = 0 then (if a = 0 then nan else if 0 < a then posInf else negInf)
      else roundDouble (a / b)
  | nan, _ => nan
  | _, nan => nan
  | fin _, posInf => fin 0
  | fin _, negInf => fin 0
  | posInf, fin b => if 0 ≤ b then posInf else negInf
  | negInf, fin b => if 0 ≤ b then negInf else posInf
  | posInf, posInf => nan
  | posInf, negInf => nan
  | negInf, posInf => nan
  | negInf, negInf => nan

instance : Add JSNumber := ⟨add⟩
instance : Sub JSNumber := ⟨sub⟩
instance : Mul JSNumber := ⟨mul⟩
instance : Div JSNumber := ⟨div⟩

/-- `Math.abs`. -/
def abs : JSNumber → JSNumber
  | fin q => fin |q|
  | nan => nan
  | posInf => posInf
  | negInf => posInf

/-- `Math.max` of two numbers. -/
def max : JSNumber → JSNumber → JSNumber
  | nan, _ => nan
  | _, nan => nan
  | posInf, _ => posInf
  | _, posInf => posInf
  | negInf, b => b
  | a, negInf => a
  | fin a, fin b => fin (Max.max a b)

/-- The test `d > 0`. -/
def gtZero : JSNumber → Bool
  | fin q => decide (0 < q)
  | posInf => true
  | _ => false

/-- The test `x === 0`. -/
def isZero : JSNumber → Bool
  | fin q => decide (q = 0)
  | _ => false

/-- Rounding of a finite number to `f` decimals as `Number.prototype.toFixed`
does it: the magnitude is rounded to the nearest multiple of `10^-f`, the larger
one on a tie, and the sign is put back.  (From `10^21` on `toFixed` prints the
number itself; a double of that size is an integer, which this rounding leaves
unchanged as well.) -/
def roundFixed (f : Nat) (x : ℚ) : ℚ :=
  if x < 0 then -((⌊(-x) * 10 ^ f + 1 / 2⌋ : ℤ) / 10 ^ f : ℚ)
  else ((⌊x * 10 ^ f + 1 / 2⌋ : ℤ) / 10 ^ f : ℚ)

/-- The expression `+x.toFixed(f)`: `toFixed` prints the decimal rounding of the
exact value of `x` (and `NaN` and the infinities by name), and unary plus reads
the text back as the nearest double. -/
def toFixed (x : JSNumber) (f : Nat) : JSNumber :=
  match x with
  | fin q => roundDouble (roundFixed f q)
  | nan => nan
  | posInf => posInf
  | negInf => negInf

/-- An integer used as a number. -/
def ofInt (n : Int) : JSNumber := fin (n : ℚ)

end JSNumber

open JSNumber

/-! ## Arrays -/

/-- The exceptions this code can raise. -/
inductive JSError where
  /-- `RangeError: Invalid array length`, raised by `Array(n)` for negative `n`. -/
  | rangeError
  deriving DecidableEq

/-- Equality of two results can be decided. -/
instance : DecidableEq (Except JSError (List (Option JSNumber)))
  | .ok a, .ok b =>
      if h : a = b then isTrue (congrArg Except.ok h)
      else isFalse (fun h2 => h (Except.ok.inj h2))
  | .error a, .error b =>
      if h : a = b then isTrue (congrArg Except.error h)
      else isFalse (fun h2 => h (Except.error.inj h2))
  | .ok _, .error _ => isFalse (fun h => Except.noConfusion h)
  | .error _, .ok _ => isFalse (fun h => Except.noConfusion h)

/-- The method `Array.prototype.slice(start, end)`: a negative bound counts from
the end of the array, and both bounds are clamped to `[0, length]`. -/
def jsSlice {α : Type} (xs : List α) (start stop : Int) : List α :=
  let len : Int := xs.length
  let k : Int := if start < 0 then max (len + start) 0 else min start len
  let e : Int := if stop < 0 then max (len + stop) 0 else min stop len
  (xs.drop k.toNat).take (e - k).toNat

/-- The element read `xs[i]` used as a number: a read outside the array gives
`undefined`, which both `undefined > 0` and `Math.abs(undefined)` treat as
`NaN`. -/
def jsIndex (xs : List JSNumber) (i : Nat) : JSNumber :=
  xs.getD i JSNumber.nan

/-- The expression `Array(n).fill(null)` for an integer `n`; the upper limit
on array lengths is not modelled. -/
def jsArrayFillNull (n : Int) : Except JSError (List (Option JSNumber)) :=
  if n < 0 then .error .rangeError else .ok (List.replicate n.toNat none)

/-! ## `sma` -/

/-- One iteration of the loop of `sma`: the entry pushed for index `i`. -/
def smaAt (values : List ℚ) (window : Int) (i : Nat) : Option JSNumber :=
  if (i : Int) < window - 1 then none
  else
    let slice := jsSlice values ((i : Int) - window + 1) ((i : Int) + 1)
    let avg := (slice.map JSNumber.fin).foldl (fun a b => a + b) (JSNumber.fin 0)
      / JSNumber.ofInt window
    some (avg.toFixed 4)

/-- The function `sma(values, window)`. -/
def sma (values : List ℚ) (window : Int) : Except JSError (List (Option JSNumber)) :=
  .ok ((List.range values.length).map (smaAt values window))

/-! ## `rsi` -/

/-- The first loop of `rsi`: the differences `values[i] - values[i-1]` for
`i = 1 .. values.length - 1`, in order. -/
def deltas : List ℚ → List JSNumber
  | a :: b :: rest => (JSNumber.fin b - JSNumber.fin a) :: deltas (b :: rest)
  | _ => []

/-- One iteration of the seed loop of `rsi` on the pair `(gains, losses)`. -/
def seedStep (ds : List JSNumber) (acc : JSNumber × JSNumber) (i : Nat) :
    JSNumber × JSNumber :=
  let d := jsIndex ds i
  if d.gtZero then (acc.1 + d, acc.2) else (acc.1, acc.2 + d.abs)

/-- The seed loop of `rsi`, `for (let i=0;i<period;i++)`, giving
`(gains, losses)`. -/
def seedSums (ds : List JSNumber) (period : Int) : JSNumber × JSNumber :=
  (List.range period.toNat).foldl (seedStep ds) (JSNumber.fin 0, JSNumber.fin 0)

/-- The update of `(avgGain, avgLoss)` in one iteration of the main loop. -/
def smooth (period : Int) (avg : JSNumber × JSNumber) (d : JSNumber) :
    JSNumber × JSNumber :=
  if d.gtZero then
    ((avg.1 * JSNumber.ofInt (period - 1) + d) / JSNumber.ofInt period,
     (avg.2 * JSNumber.ofInt (period - 1) + JSNumber.fin 0) / JSNumber.ofInt period)
  else
    ((avg.1 * JSNumber.ofInt (period - 1) + JSNumber.fin 0) / JSNumber.ofInt period,
     (avg.2 * JSNumber.ofInt (period - 1) + d.abs) / JSNumber.ofInt period)

/-- The value `rsiVal` computed from `(avgGain, avgLoss)`. -/
def rsiVal (avg : JSNumber × JSNumber) : JSNumber :=
  let rs := if avg.2.isZero then JSNumber.fin 100 else avg.1 / avg.2
  if avg.2.isZero then JSNumber.fin 100
  else JSNumber.fin 100 - JSNumber.fin 100 / (JSNumber.fin 1 + rs)

/-- The main loop of `rsi` over the differences `deltas[period ..]`: the
entries it pushes. -/
def rsiLoop (period : Int) : JSNumber × JSNumber → List JSNumber → List (Option JSNumber)
  | _, [] => []
  | avg, d :: ds =>
      let avg2 := smooth period avg d
      some ((rsiVal avg2).toFixed 2) :: rsiLoop period avg2 ds

/-- The function `rsi(values, period)`. -/
def rsi (values : List ℚ) (period : Int) : Except JSError (List (Option JSNumber)) :=
  if (values.length : Int) < period + 1 then .ok (values.map (fun _ => none))
  else
    let ds := deltas values
    let sums := seedSums ds period
    let avgGain := sums.1 / JSNumber.ofInt period
    let avgLoss := sums.2 / JSNumber.ofInt period
    match jsArrayFillNull period with
    | .error e => .error e
    | .ok res => .ok (none :: (res ++ rsiLoop period (avgGain, avgLoss) (ds.drop period.toNat)))

/-- The sequence of values taken by `(avgGain, avgLoss)` in the main loop of
`rsi`, one per iteration. -/
def rsiStates (period : Int) : JSNumber × JSNumber → List JSNumber → List (JSNumber × JSNumber)
  | _, [] => []
  | avg, d :: ds => smooth period avg d :: rsiStates period (smooth period avg d) ds

/-- The pair `(avgGain, avgLoss)` of `rsi` after the seed loop. -/
def seedAverages (values : List ℚ) (period : Int) : JSNumber × JSNumber :=
  ((seedSums (deltas values) period).1 / JSNumber.ofInt period,
   (seedSums (deltas values) period).2 / JSNumber.ofInt period)

/-! ## The indicators as the specification words them -/

/-- The arithmetic mean of `values[i-window+1 .. i]` over the reals: the sum of
those `window` elements divided by `window`. -/
def windowMean (values : List ℚ) (window i : Nat) : ℚ :=
  ((List.range window).map (fun j => values.getD (i + 1 - window + j) 0)).sum / window

/-- The mean of `values[i-window+1 .. i]` in double arithmetic: the elements
are added from left to right, starting from `0`, and the sum is divided by
`window`, every operation being rounded. -/
def windowMeanDouble (values : List ℚ) (window i : Nat) : JSNumber :=
  ((List.range window).map (fun j => JSNumber.fin (values.getD (i + 1 - window + j) 0))).foldl
    (fun a b => a + b) (JSNumber.fin 0) / JSNumber.ofInt (window : Int)

/-- The difference `delta[j] = values[j+1] - values[j]` over the reals. -/
def delta (values : List ℚ) (j : Nat) : ℚ :=
  values.getD (j + 1) 0 - values.getD j 0

/-- The seed of the average gain over the reals: the sum over `j < period` of
`max(delta[j], 0)`, divided by `period`. -/
def seedGain (values : List ℚ) (period : Nat) : ℚ :=
  ((List.range period).map (fun j => max (delta values j) 0)).sum / period

/-- The seed of the average loss over the reals: the sum over `j < period` of
`max(-delta[j], 0)`, divided by `period`. -/
def seedLoss (values : List ℚ) (period : Nat) : ℚ :=
  ((List.range period).map (fun j => max (-delta values j) 0)).sum / period

/-- The Wilder average gain `avgGain_k` over the reals: the seed for
`k ≤ period - 1`, and `(avgGain_{k-1} * (period - 1) + max(delta[k], 0)) / period`
for `k ≥ period`. -/
def wilderGain (values : List ℚ) (period : Nat) : Nat → ℚ
  | 0 => seedGain values period
  | k + 1 =>
      if k + 1 < period then seedGain values period
      else (wilderGain values period k * ((period : ℚ) - 1) + max (delta values (k + 1)) 0)
        / period

/-- The Wilder average loss `avgLoss_k` over the reals: the seed for
`k ≤ period - 1`, and `(avgLoss_{k-1} * (period - 1) + max(-delta[k], 0)) / period`
for `k ≥ period`. -/
def wilderLoss (values : List ℚ) (period : Nat) : Nat → ℚ
  | 0 => seedLoss values period
  | k + 1 =>
      if k + 1 < period then seedLoss values period
      else (wilderLoss values period k * ((period : ℚ) - 1) + max (-delta values (k + 1)) 0)
        / period

/-- The index value at delta index `k` over the reals: `100` when
`avgLoss_k = 0`, and `100 - 100 / (1 + avgGain_k / avgLoss_k)` otherwise. -/
def wilderRsi (values : List ℚ) (period k : Nat) : ℚ :=
  if wilderLoss values period k = 0 then 100
  else 100 - 100 / (1 + wilderGain values period k / wilderLoss values period k)

/-- The difference `delta[j] = values[j+1] - values[j]` in double arithmetic. -/
def deltaDouble (values : List ℚ) (j : Nat) : JSNumber :=
  JSNumber.fin (values.getD (j + 1) 0) - JSNumber.fin (values.getD j 0)

/-- The sum of a sequence of numbers in double arithmetic, from left to right,
starting from `0`. -/
def sumDouble (xs : List JSNumber) : JSNumber :=
  xs.foldl (fun a b => a + b) (JSNumber.fin 0)

/-- The seed of the average gain in double arithmetic. -/
def seedGainDouble (values : List ℚ) (period : Nat) : JSNumber :=
  sumDouble ((List.range period).map
    (fun j => JSNumber.max (deltaDouble values j) (JSNumber.fin 0)))
    / JSNumber.ofInt (period : Int)

/-- The seed of the average loss in double arithmetic. -/
def seedLossDouble (values : List ℚ) (period : Nat) : JSNumber :=
  sumDouble ((List.range period).map
    (fun j => JSNumber.max (JSNumber.neg (deltaDouble values j)) (JSNumber.fin 0)))
    / JSNumber.ofInt (period : Int)

/-- The Wilder average gain `avgGain_k` in double arithmetic. -/
def wilderGainDouble (values : List ℚ) (period : Nat) : Nat → JSNumber
  | 0 => seedGainDouble values period
  | k + 1 =>
      if k + 1 < period then seedGainDouble values period
      else (wilderGainDouble values period k * JSNumber.ofInt ((period : Int) - 1)
          + JSNumber.max (deltaDouble values (k + 1)) (JSNumber.fin 0))
        / JSNumber.ofInt (period : Int)

/-- The Wilder average loss `avgLoss_k` in double arithmetic. -/
def wilderLossDouble (values : List ℚ) (period : Nat) : Nat → JSNumber
  | 0 => seedLossDouble values period
  | k + 1 =>
      if k + 1 < period then seedLossDouble values period
      else (wilderLossDouble values period k * JSNumber.ofInt ((period : Int) - 1)
          + JSNumber.max (JSNumber.neg (deltaDouble values (k + 1))) (JSNumber.fin 0))
        / JSNumber.ofInt (period : Int)

/-- The index value at delta index `k` in double arithmetic: `100` when
`avgLoss_k` is zero, and `100 - 100 / (1 + avgGain_k / avgLoss_k)` otherwise. -/
def wilderRsiDouble (values : List ℚ) (period k : Nat) : JSNumber :=
  if (wilderLossDouble values period k).isZero then JSNumber.fin 100
  else JSNumber.fin 100 - JSNumber.fin 100 /
    (JSNumber.fin 1 + wilderGainDouble values period k / wilderLossDouble values period k)

/-! ## Ranges of numbers -/

/-- The number is `Infinity` or a finite value that is at least `c`. -/
def AtLeast (c : ℚ) : JSNumber → Prop
  | .fin q => c ≤ q
  | .posInf => True
  | _ => False

/-- The number is `-Infinity` or a finite value that is at most `c`. -/
def AtMost (c : ℚ) : JSNumber → Prop
  | .fin q => q ≤ c
  | .negInf => True
  | _ => False

/-- The number is `NaN`, `Infinity` or a finite value that is not negative. -/
def NonnegOrNaN : JSNumber → Prop
  | .fin q => 0 ≤ q
  | .nan => True
  | .posInf => True
  | .negInf => False

/-- The number is one a variable can hold: a finite value is a double. -/
def Canonical : JSNumber → Prop
  | .fin q => IsDouble q
  | _ => True

/-- The smallest positive double, `2^-1074`. -/
def minSubnormal : ℚ := (2 : ℚ) ^ (-1074 : ℤ)

/-- The largest double, `2^1024 - 2^971`. -/
def maxDouble : ℚ := 2 ^ 1024 - 2 ^ 971

/-- The bound on `avgLoss` used for decreasing inputs: it is `Infinity` or at
least the smallest positive double, and it is finite when `period = 1`. -/
def LossBound (period : Nat) (l : JSNumber) : Prop :=
  AtLeast minSubnormal l ∧ (period = 1 → AtMost maxDouble l)

/-- The bound on a difference used for decreasing inputs: it is `-Infinity` or
at most the negated smallest positive double, and it is finite when
`period = 1`. -/
def DeltaBound (period : Nat) (d : JSNumber) : Prop :=
  AtMost (-minSubnormal) d ∧ (period = 1 → AtLeast (-maxDouble) d)

/-- The number is `NaN` or a finite value between `0` and `100`. -/
def InRangeOrNaN (x : JSNumber) : Prop :=
  x = .nan ∨ ∃ r : ℚ, x = .fin r ∧ 0 ≤ r ∧ r ≤ 100

end ChartUtils

/-! ## Facts about `roundDouble` -/

namespace ChartUtils

open JSNumber

theorem bits_spec : ∀ (fuel n : Nat), n ≤ fuel → 0 < n →
    2 ^ bits fuel n ≤ n ∧ n < 2 ^ (bits fuel n + 1)
  | 0, n, h, hn => by omega
  | fuel + 1, n, h, hn => by
      unfold bits
      split
      · constructor <;> simp <;> omega
      · have ih := bits_spec fuel (n / 2) (by omega) (by omega)
        obtain ⟨h1, h2⟩ := ih
        have e1 : 2 ^ (bits fuel (n / 2) + 1) = 2 * 2 ^ bits fuel (n / 2) := by ring
        have e2 : 2 ^ (bits fuel (n / 2) + 1 + 1) = 2 * (2 * 2 ^ bits fuel (n / 2)) := by ring
        rw [e1] at h2
        rw [e1, e2]
        constructor <;> omega

theorem two_zpow_pos (e : ℤ) : (0 : ℚ) < (2 : ℚ) ^ e := zpow_pos (by norm_num) e

theorem binade_spec (x : ℚ) (hx : x ≠ 0) :
    (2 : ℚ) ^ binade x ≤ |x| ∧ |x| < (2 : ℚ) ^ (binade x + 1) := by
  have hN : 0 < x.num.natAbs := Int.natAbs_pos.mpr (Rat.num_ne_zero.mpr hx)
  have hD : 0 < x.den := x.den_pos
  obtain ⟨a1, a2⟩ := bits_spec x.num.natAbs x.num.natAbs (le_refl _) hN
  obtain ⟨b1, b2⟩ := bits_spec x.den x.den (le_refl _) hD
  have habs : |x| = (x.num.natAbs : ℚ) / (x.den : ℚ) := by
    conv_lhs => rw [← Rat.num_div_den x]
    rw [abs_div, Nat.abs_cast, Nat.cast_natAbs, Int.cast_abs]
  have hDq : (0 : ℚ) < (x.den : ℚ) := by exact_mod_cast hD
  have a1q : (2 : ℚ) ^ bits x.num.natAbs x.num.natAbs ≤ (x.num.natAbs : ℚ) := by
    exact_mod_cast a1
  have a2q : (x.num.natAbs : ℚ) < (2 : ℚ) ^ (bits x.num.natAbs x.num.natAbs + 1) := by
    exact_mod_cast a2
  have b1q : (2 : ℚ) ^ bits x.den x.den ≤ (x.den : ℚ) := by exact_mod_cast b1
  have b2q : (x.den : ℚ) < (2 : ℚ) ^ (bits x.den x.den + 1) := by exact_mod_cast b2
  have hpa : (0 : ℚ) < (2 : ℚ) ^ bits x.num.natAbs x.num.natAbs := by positivity
  have hpb : (0 : ℚ) < (2 : ℚ) ^ bits x.den x.den := by positivity
  have e0 : (2 : ℚ) ^ ((bits x.num.natAbs x.num.natAbs : ℤ) - (bits x.den x.den : ℤ)) =
      (2 : ℚ) ^ bits x.num.natAbs x.num.natAbs / (2 : ℚ) ^ bits x.den x.den := by
    rw [zpow_sub₀ (by norm_num), zpow_natCast, zpow_natCast]
  have eup : (2 : ℚ) ^ ((bits x.num.natAbs x.num.natAbs : ℤ) - (bits x.den x.den : ℤ) + 1) =
      (2 : ℚ) ^ bits x.num.natAbs x.num.natAbs / (2 : ℚ) ^ bits x.den x.den * 2 := by
    rw [zpow_add_one₀ (by norm_num), e0]
  have elow : (2 : ℚ) ^ ((bits x.num.natAbs x.num.natAbs : ℤ) - (bits x.den x.den : ℤ) - 1) =
      (2 : ℚ) ^ bits x.num.natAbs x.num.natAbs / (2 : ℚ) ^ bits x.den x.den / 2 := by
    rw [zpow_sub_one₀ (by norm_num), e0]
    rfl
  have up : |x| < (2 : ℚ) ^ bits x.num.natAbs x.num.natAbs / (2 : ℚ) ^ bits x.den x.den * 2 := by
    rw [habs, div_mul_eq_mul_div, div_lt_div_iff₀ hDq hpb]
    have : (2 : ℚ) ^ (bits x.num.natAbs x.num.natAbs + 1) =
        (2 : ℚ) ^ bits x.num.natAbs x.num.natAbs * 2 := by ring
    rw [this] at a2q
    nlinarith
  have low : (2 : ℚ) ^ bits x.num.natAbs x.num.natAbs / (2 : ℚ) ^ bits x.den x.den / 2 ≤ |x| := by
    rw [habs, div_div, div_le_div_iff₀ (by positivity) hDq]
    have : (2 : ℚ) ^ (bits x.den x.den + 1) = (2 : ℚ) ^ bits x.den x.den * 2 := by ring
    rw [this] at b2q
    nlinarith
  unfold binade
  split
  · rename_i h
    exact ⟨h, by rw [eup]; exact up⟩
  · rename_i h
    refine ⟨by rw [elow]; exact low, ?_⟩
    rw [sub_add_cancel]
    exact not_le.mp h

theorem floor_le_roundHalfEven (t : ℚ) : ⌊t⌋ ≤ roundHalfEven t := by
  unfold roundHalfEven
  split
  · exact le_refl _
  · split
    · omega
    · split <;> omega

theorem roundHalfEven_le_floor_add_one (t : ℚ) : roundHalfEven t ≤ ⌊t⌋ + 1 := by
  unfold roundHalfEven
  split
  · omega
  · split
    · omega
    · split <;> omega

theorem roundHalfEven_intCast (k : ℤ) : roundHalfEven (k : ℚ) = k := by
  unfold roundHalfEven
  simp

theorem le_roundHalfEven (k : ℤ) (t : ℚ) (h : (k : ℚ) ≤ t) : k ≤ roundHalfEven t :=
  le_trans (Int.le_floor.mpr h) (floor_le_roundHalfEven t)

theorem roundHalfEven_le (k : ℤ) (t : ℚ) (h : t ≤ (k : ℚ)) : roundHalfEven t ≤ k := by
  rcases eq_or_lt_of_le h with h1 | h1
  · rw [h1, roundHalfEven_intCast]
  · have : ⌊t⌋ < k := Int.floor_lt.mpr h1
    have := roundHalfEven_le_floor_add_one t
    omega

theorem quantumExp_ge (x : ℚ) : -1074 ≤ quantumExp x := by
  unfold quantumExp
  have := le_max_right (binade x) (-1022)
  omega

theorem binade_sub_le_quantumExp (x : ℚ) : binade x - 52 ≤ quantumExp x := by
  unfold quantumExp
  have := le_max_left (binade x) (-1022)
  omega

theorem roundToQuantum_zero : roundToQuantum 0 = 0 := by
  unfold roundToQuantum
  rw [zero_div]
  have : roundHalfEven (0 : ℚ) = 0 := by
    have := roundHalfEven_intCast 0
    simpa using this
  rw [this]
  simp

/-- A multiple of the spacing around `x` that is below `x` is below the
rounding of `x`. -/
theorem le_roundToQuantum_of_multiple (x c : ℚ) (k : ℤ)
    (hc : c = (k : ℚ) * (2 : ℚ) ^ quantumExp x) (h : c ≤ x) : c ≤ roundToQuantum x := by
  have hq := two_zpow_pos (quantumExp x)
  have h1 : (k : ℚ) ≤ x / (2 : ℚ) ^ quantumExp x := by
    rw [le_div_iff₀ hq, ← hc]
    exact h
  have h2 : ((k : ℤ) : ℚ) ≤ ((roundHalfEven (x / (2 : ℚ) ^ quantumExp x) : ℤ) : ℚ) := by
    exact_mod_cast le_roundHalfEven k _ h1
  unfold roundToQuantum
  rw [hc]
  exact mul_le_mul_of_nonneg_right h2 hq.le

/-- A multiple of the spacing around `x` that is above `x` is above the
rounding of `x`. -/
theorem roundToQuantum_le_of_multiple (x c : ℚ) (k : ℤ)
    (hc : c = (k : ℚ) * (2 : ℚ) ^ quantumExp x) (h : x ≤ c) : roundToQuantum x ≤ c := by
  have hq := two_zpow_pos (quantumExp x)
  have h1 : x / (2 : ℚ) ^ quantumExp x ≤ (k : ℚ) := by
    rw [div_le_iff₀ hq, ← hc]
    exact h
  have h2 : ((roundHalfEven (x / (2 : ℚ) ^ quantumExp x) : ℤ) : ℚ) ≤ ((k : ℤ) : ℚ) := by
    exact_mod_cast roundHalfEven_le k _ h1
  unfold roundToQuantum
  rw [hc]
  exact mul_le_mul_of_nonneg_right h2 hq.le

end ChartUtils

/-! ## Facts about doubles -/

namespace ChartUtils

open JSNumber

theorem isDouble_iff (c : ℚ) :
    IsDouble c ↔ roundToQuantum c = c ∧ |c| < (2 : ℚ) ^ (1024 : ℕ) := by
  unfold IsDouble roundDouble
  constructor
  · intro h
    split at h
    · split at h <;> exact absurd h (by simp)
    · rename_i hlt
      have e : roundToQuantum c = c := JSNumber.fin.inj h
      rw [e] at hlt
      exact ⟨e, not_le.mp hlt⟩
  · rintro ⟨e, hlt⟩
    rw [e, if_neg (not_le.mpr hlt)]

theorem isDouble_zero : IsDouble 0 := by
  rw [isDouble_iff]
  exact ⟨roundToQuantum_zero, by simp⟩

theorem two_zpow_split (a b : ℤ) (h : b ≤ a) :
    (2 : ℚ) ^ a = (((2 : ℤ) ^ (a - b).toNat : ℤ) : ℚ) * (2 : ℚ) ^ b := by
  have e : a = ((a - b).toNat : ℤ) + b := by
    rw [Int.toNat_of_nonneg (by omega)]
    ring
  conv_lhs => rw [e]
  rw [zpow_add₀ (by norm_num), zpow_natCast]
  push_cast
  rfl

/-- A double is either a multiple of the spacing around `x`, or lies in a
binade strictly below that of `x`. -/
theorem isDouble_multiple_or_small (c x : ℚ) (hc : IsDouble c) :
    (∃ k : ℤ, c = (k : ℚ) * (2 : ℚ) ^ quantumExp x) ∨
      (|c| < (2 : ℚ) ^ binade x ∧ quantumExp x = binade x - 52) := by
  obtain ⟨hr, _⟩ := (isDouble_iff c).mp hc
  by_cases hc0 : c = 0
  · exact Or.inl ⟨0, by simp [hc0]⟩
  by_cases hE : quantumExp x ≤ quantumExp c
  · left
    refine ⟨roundHalfEven (c / (2 : ℚ) ^ quantumExp c) * (2 : ℤ) ^ (quantumExp c - quantumExp x).toNat, ?_⟩
    conv_lhs => rw [← hr]
    unfold roundToQuantum
    rw [two_zpow_split (quantumExp c) (quantumExp x) hE]
    push_cast
    ring
  · right
    have h1 := quantumExp_ge c
    have h2 := binade_sub_le_quantumExp c
    have h3 : quantumExp x = binade x - 52 := by
      unfold quantumExp at hE h1 ⊢
      rcases max_cases (binade x) (-1022) with ⟨e1, _⟩ | ⟨e1, _⟩
      · rw [e1]
      · rw [e1] at hE
        omega
    refine ⟨?_, h3⟩
    have hb : binade c + 1 ≤ binade x := by omega
    have := (binade_spec c hc0).2
    exact lt_of_lt_of_le this (zpow_le_zpow_right₀ (by norm_num) hb)

theorem two_zpow_binade_multiple (x : ℚ) (h : quantumExp x = binade x - 52) :
    (2 : ℚ) ^ binade x = (((2 : ℤ) ^ 52 : ℤ) : ℚ) * (2 : ℚ) ^ quantumExp x := by
  have := two_zpow_split (binade x) (quantumExp x) (by omega)
  rw [this]
  have e : (binade x - quantumExp x).toNat = 52 := by omega
  rw [e]

/-- Rounding is monotone against doubles, from below. -/
theorem le_roundToQuantum (c x : ℚ) (hc : IsDouble c) (h : c ≤ x) : c ≤ roundToQuantum x := by
  by_cases hx : x = 0
  · rw [hx, roundToQuantum_zero]
    rw [hx] at h
    exact h
  rcases isDouble_multiple_or_small c x hc with ⟨k, hk⟩ | ⟨hsmall, hq⟩
  · exact le_roundToQuantum_of_multiple x c k hk h
  · have hb := (binade_spec x hx).1
    have hxpos : 0 < x := by
      by_contra hneg
      have hx2 : x ≤ 0 := not_lt.mp hneg
      have : |x| ≤ |c| := by
        rw [abs_of_nonpos hx2, abs_of_nonpos (le_trans h hx2)]
        linarith
      linarith
    rw [abs_of_pos hxpos] at hb
    have := le_roundToQuantum_of_multiple x _ _ (two_zpow_binade_multiple x hq) hb
    have hc2 : c ≤ |c| := le_abs_self c
    linarith

/-- Rounding is monotone against doubles, from above. -/
theorem roundToQuantum_le (c x : ℚ) (hc : IsDouble c) (h : x ≤ c) : roundToQuantum x ≤ c := by
  by_cases hx : x = 0
  · rw [hx, roundToQuantum_zero]
    rw [hx] at h
    exact h
  rcases isDouble_multiple_or_small c x hc with ⟨k, hk⟩ | ⟨hsmall, hq⟩
  · exact roundToQuantum_le_of_multiple x c k hk h
  · have hb := (binade_spec x hx).1
    have hxneg : x < 0 := by
      by_contra hpos
      have hx2 : 0 ≤ x := not_lt.mp hpos
      have : |x| ≤ |c| := by
        rw [abs_of_nonneg hx2, abs_of_nonneg (le_trans hx2 h)]
        exact h
      linarith
    rw [abs_of_neg hxneg] at hb
    have hmul : -(2 : ℚ) ^ binade x = (((-(2 : ℤ) ^ 52 : ℤ)) : ℚ) * (2 : ℚ) ^ quantumExp x := by
      rw [two_zpow_binade_multiple x hq]
      push_cast
      ring
    have := roundToQuantum_le_of_multiple x _ _ hmul (by linarith)
    have hc2 : -|c| ≤ c := neg_abs_le c
    linarith

/-- A number `m * 2^e` with `|m| < 2^53`, `e ≥ -1074` and magnitude below
`2^1024` is a double. -/
theorem isDouble_of_mul_zpow (m e : ℤ) (hm : |m| < 2 ^ 53) (he : -1074 ≤ e)
    (hlt : |(m : ℚ) * (2 : ℚ) ^ e| < (2 : ℚ) ^ (1024 : ℕ)) :
    IsDouble ((m : ℚ) * (2 : ℚ) ^ e) := by
  by_cases hm0 : m = 0
  · rw [hm0]
    simpa using isDouble_zero
  have hpos := two_zpow_pos e
  have hx : (m : ℚ) * (2 : ℚ) ^ e ≠ 0 :=
    mul_ne_zero (by exact_mod_cast hm0) (ne_of_gt hpos)
  have hb := (binade_spec _ hx).1
  have habs : |(m : ℚ) * (2 : ℚ) ^ e| < (2 : ℚ) ^ (e + 53) := by
    rw [abs_mul, abs_of_pos hpos, zpow_add₀ (by norm_num), mul_comm]
    apply mul_lt_mul_of_pos_left _ hpos
    have h53 : ((|m| : ℤ) : ℚ) < (((2 : ℤ) ^ 53 : ℤ) : ℚ) := by exact_mod_cast hm
    rw [Int.cast_abs] at h53
    norm_num at h53 ⊢
    exact h53
  have hbin : binade ((m : ℚ) * (2 : ℚ) ^ e) < e + 53 :=
    (zpow_lt_zpow_iff_right₀ (by norm_num : (1 : ℚ) < 2)).mp (lt_of_le_of_lt hb habs)
  have hE : quantumExp ((m : ℚ) * (2 : ℚ) ^ e) ≤ e := by
    unfold quantumExp
    rcases max_cases (binade ((m : ℚ) * (2 : ℚ) ^ e)) (-1022) with ⟨e1, _⟩ | ⟨e1, _⟩ <;>
      rw [e1] <;> omega
  rw [isDouble_iff]
  refine ⟨?_, hlt⟩
  have key : ∀ Q : ℤ, Q ≤ e →
      (m : ℚ) * (2 : ℚ) ^ e = ((m * (2 : ℤ) ^ (e - Q).toNat : ℤ) : ℚ) * (2 : ℚ) ^ Q := by
    intro Q hQ
    rw [two_zpow_split e Q hQ]
    push_cast
    ring
  have hk := key _ hE
  exact le_antisymm (roundToQuantum_le_of_multiple _ _ _ hk (le_refl _))
    (le_roundToQuantum_of_multiple _ _ _ hk (le_refl _))

end ChartUtils

/-! ## Facts about the results of rounding -/

namespace ChartUtils

open JSNumber

theorem roundDouble_of_isDouble (c : ℚ) (h : IsDouble c) : roundDouble c = fin c := h

theorem roundDouble_zero : roundDouble 0 = fin 0 := isDouble_zero

theorem roundDouble_ne_nan (x : ℚ) : roundDouble x ≠ nan := by
  unfold roundDouble
  split
  · split <;> simp
  · simp

theorem atLeast_roundDouble (c x : ℚ) (hc : IsDouble c) (h : c ≤ x) :
    AtLeast c (roundDouble x) := by
  have h1 := le_roundToQuantum c x hc h
  have h2 := ((isDouble_iff c).mp hc).2
  unfold roundDouble
  split
  · rename_i hov
    split
    · trivial
    · rename_i hneg
      have h3 : roundToQuantum x ≤ 0 := not_lt.mp hneg
      rw [abs_of_nonpos h3] at hov
      have h4 : -|c| ≤ c := neg_abs_le c
      linarith
  · exact h1

theorem atMost_roundDouble (c x : ℚ) (hc : IsDouble c) (h : x ≤ c) :
    AtMost c (roundDouble x) := by
  have h1 := roundToQuantum_le c x hc h
  have h2 := ((isDouble_iff c).mp hc).2
  unfold roundDouble
  split
  · rename_i hov
    split
    · rename_i hpos
      rw [abs_of_pos hpos] at hov
      have h4 : c ≤ |c| := le_abs_self c
      linarith
    · trivial
  · exact h1

/-- Every finite result of a rounding is a double. -/
theorem canonical_roundDouble (x : ℚ) : Canonical (roundDouble x) := by
  unfold roundDouble
  split
  · split <;> trivial
  · rename_i hlt
    have hlt2 : |roundToQuantum x| < (2 : ℚ) ^ (1024 : ℕ) := not_le.mp hlt
    show IsDouble (roundToQuantum x)
    by_cases hx : x = 0
    · rw [hx, roundToQuantum_zero]
      exact isDouble_zero
    have hq := two_zpow_pos (quantumExp x)
    have hb := (binade_spec x hx).2
    have hE := binade_sub_le_quantumExp x
    have hbound : |x| < (((2 : ℤ) ^ 53 : ℤ) : ℚ) * (2 : ℚ) ^ quantumExp x := by
      have h1 : (2 : ℚ) ^ (binade x + 1) ≤ (2 : ℚ) ^ (quantumExp x + 53) :=
        zpow_le_zpow_right₀ (by norm_num) (by omega)
      have h2 : (2 : ℚ) ^ (quantumExp x + 53) =
          (((2 : ℤ) ^ 53 : ℤ) : ℚ) * (2 : ℚ) ^ quantumExp x := by
        rw [zpow_add₀ (by norm_num), mul_comm]
        norm_num
      linarith
    have hup : x / (2 : ℚ) ^ quantumExp x ≤ (((2 : ℤ) ^ 53 : ℤ) : ℚ) := by
      rw [div_le_iff₀ hq]
      exact le_trans (le_abs_self x) hbound.le
    have hlow : (((-(2 : ℤ) ^ 53 : ℤ)) : ℚ) ≤ x / (2 : ℚ) ^ quantumExp x := by
      rw [le_div_iff₀ hq]
      have := neg_abs_le x
      push_cast
      push_cast at hbound
      linarith
    have n1 := roundHalfEven_le _ _ hup
    have n2 := le_roundHalfEven _ _ hlow
    have hlt3 := hlt2
    unfold roundToQuantum at hlt3 ⊢
    rcases lt_or_eq_of_le n1 with hs | hs
    · rcases lt_or_eq_of_le n2 with hs2 | hs2
      · exact isDouble_of_mul_zpow _ _ (abs_lt.mpr ⟨by omega, hs⟩) (quantumExp_ge x) hlt3
      · have e : ((roundHalfEven (x / (2 : ℚ) ^ quantumExp x) : ℤ) : ℚ) * (2 : ℚ) ^ quantumExp x =
            (((-1 : ℤ)) : ℚ) * (2 : ℚ) ^ (quantumExp x + 53) := by
          rw [← hs2, zpow_add₀ (by norm_num)]
          push_cast
          norm_num
          ring
        rw [e] at hlt3 ⊢
        exact isDouble_of_mul_zpow _ _ (by norm_num) (by have := quantumExp_ge x; omega) hlt3
    · have e : ((roundHalfEven (x / (2 : ℚ) ^ quantumExp x) : ℤ) : ℚ) * (2 : ℚ) ^ quantumExp x =
          (((1 : ℤ)) : ℚ) * (2 : ℚ) ^ (quantumExp x + 53) := by
        rw [hs, zpow_add₀ (by norm_num)]
        push_cast
        norm_num
        ring
      rw [e] at hlt3 ⊢
      exact isDouble_of_mul_zpow _ _ (by norm_num) (by have := quantumExp_ge x; omega) hlt3

/-! ## Arithmetic of `JSNumber` -/

theorem fin_add_fin (a b : ℚ) : fin a + fin b = roundDouble (a + b) := rfl

theorem fin_sub_fin (a b : ℚ) : fin a - fin b = roundDouble (a - b) := by
  show add (fin a) (neg (fin b)) = roundDouble (a - b)
  simp [add, neg, sub_eq_add_neg]

theorem fin_mul_fin (a b : ℚ) : fin a * fin b = roundDouble (a * b) := rfl

theorem fin_div_fin (a b : ℚ) :
    fin a / fin b =
      if b = 0 then (if a = 0 then nan else if 0 < a then posInf else negInf)
      else roundDouble (a / b) := rfl

theorem fin_div_fin_of_ne (a : ℚ) {b : ℚ} (h : b ≠ 0) : fin a / fin b = roundDouble (a / b) := by
  rw [fin_div_fin, if_neg h]

theorem nan_add (x : JSNumber) : nan + x = nan := by
  cases x <;> rfl

theorem nan_mul (x : JSNumber) : nan * x = nan := by
  cases x <;> rfl

theorem nan_div (x : JSNumber) : nan / x = nan := by
  cases x <;> rfl

theorem add_nan (x : JSNumber) : x + nan = nan := by
  cases x <;> rfl

theorem sub_nan (x : JSNumber) : x - nan = nan := by
  cases x <;> rfl

theorem div_nan (x : JSNumber) : x / nan = nan := by
  cases x <;> rfl

theorem abs_fin (q : ℚ) : JSNumber.abs (fin q) = fin |q| := rfl

theorem gtZero_fin (q : ℚ) : gtZero (fin q) = decide (0 < q) := rfl

theorem isZero_fin (q : ℚ) : isZero (fin q) = decide (q = 0) := rfl

theorem isZero_nan : isZero nan = false := rfl

theorem toFixed_fin (q : ℚ) (f : Nat) : toFixed (fin q) f = roundDouble (roundFixed f q) := rfl

theorem toFixed_nan (f : Nat) : toFixed nan f = nan := rfl

theorem fin_zero_add_fin_zero : fin 0 + fin 0 = fin 0 := by
  rw [fin_add_fin, add_zero, roundDouble_zero]

theorem fin_zero_mul_fin (b : ℚ) : fin 0 * fin b = fin 0 := by
  rw [fin_mul_fin, zero_mul, roundDouble_zero]

theorem fin_zero_div_fin {b : ℚ} (h : b ≠ 0) : fin 0 / fin b = fin 0 := by
  rw [fin_div_fin_of_ne _ h, zero_div, roundDouble_zero]

theorem add_fin_zero (x : JSNumber) (h : Canonical x) : x + fin 0 = x := by
  cases x with
  | fin q =>
      rw [fin_add_fin, add_zero]
      exact h
  | nan => rfl
  | posInf => rfl
  | negInf => rfl

theorem canonical_add (x y : JSNumber) : Canonical (x + y) := by
  cases x <;> cases y <;> first | exact canonical_roundDouble _ | trivial

theorem canonical_fin_zero : Canonical (fin 0) := isDouble_zero

end ChartUtils

/-! ## Facts about `toFixed` rounding -/

namespace ChartUtils

open JSNumber

theorem abs_floor_half_sub_le (y : ℚ) : |((⌊y + 1 / 2⌋ : ℤ) : ℚ) - y| ≤ 1 / 2 := by
  have h1 : ((⌊y + 1 / 2⌋ : ℤ) : ℚ) ≤ y + 1 / 2 := Int.floor_le _
  have h2 : y + 1 / 2 < ((⌊y + 1 / 2⌋ : ℤ) : ℚ) + 1 := Int.lt_floor_add_one _
  rw [abs_le]
  constructor <;> linarith

theorem abs_div_sub_le (n x t : ℚ) (ht : 0 < t) (h : |n - x * t| ≤ 1 / 2) :
    |n / t - x| ≤ 1 / (2 * t) := by
  have e : n / t - x = (n - x * t) / t := by
    field_simp
    ring
  have ht2 : (0 : ℚ) < 2 * t := by linarith
  rw [e, abs_div, abs_of_pos ht, div_le_div_iff₀ ht ht2]
  have := mul_le_mul_of_nonneg_right h ht2.le
  linarith

/-- The decimal rounding `roundFixed f` gives a multiple of `10^-f` that is
within half a unit of the last place of its argument. -/
theorem roundFixed_nearest (f : Nat) (x : ℚ) :
    |roundFixed f x - x| ≤ 1 / (2 * 10 ^ f) ∧ ∃ n : ℤ, roundFixed f x = (n : ℚ) / 10 ^ f := by
  have hT : (0 : ℚ) < 10 ^ f := by positivity
  unfold roundFixed
  split
  · have key := abs_div_sub_le _ _ _ hT (abs_floor_half_sub_le (-x * 10 ^ f))
    constructor
    · rw [← abs_neg]
      have e : -(-(((⌊-x * 10 ^ f + 1 / 2⌋ : ℤ) : ℚ) / 10 ^ f) - x) =
          ((⌊-x * 10 ^ f + 1 / 2⌋ : ℤ) : ℚ) / 10 ^ f - -x := by ring
      rw [e]
      exact key
    · exact ⟨-⌊-x * 10 ^ f + 1 / 2⌋, by push_cast; ring⟩
  · exact ⟨abs_div_sub_le _ _ _ hT (abs_floor_half_sub_le (x * 10 ^ f)),
      ⌊x * 10 ^ f + 1 / 2⌋, rfl⟩

theorem roundFixed_zero (f : Nat) : roundFixed f 0 = 0 := by
  unfold roundFixed
  have h : (⌊(0 : ℚ) * 10 ^ f + 1 / 2⌋ : ℤ) = 0 := by
    rw [Int.floor_eq_iff]; norm_num
  rw [if_neg (lt_irrefl 0), h]
  simp

theorem toFixed_fin_zero (f : Nat) : toFixed (fin 0) f = fin 0 := by
  rw [toFixed_fin, roundFixed_zero, roundDouble_zero]

end ChartUtils

/-! ## Facts about `sma` -/

namespace ChartUtils

open JSNumber

theorem jsSlice_inside {α : Type} (xs : List α) (k e : Nat) (hke : k ≤ e)
    (he : e ≤ xs.length) : jsSlice xs (k : Int) (e : Int) = (xs.drop k).take (e - k) := by
  unfold jsSlice
  have h1 : ¬ ((k : Int) < 0) := by omega
  have h2 : ¬ ((e : Int) < 0) := by omega
  simp only [h1, h2, if_false]
  have h3 : min (k : Int) (xs.length : Int) = k := by omega
  have h4 : min (e : Int) (xs.length : Int) = e := by omega
  rw [h3, h4]
  have h5 : ((e : Int) - (k : Int)).toNat = e - k := by omega
  rw [h5, Int.toNat_ofNat]

theorem jsSlice_empty {α : Type} (xs : List α) (start stop : Int) (h0 : 0 ≤ stop)
    (hs : stop ≤ start) : jsSlice xs start stop = [] := by
  unfold jsSlice
  have h1 : ¬ (start < 0) := by omega
  have h2 : ¬ (stop < 0) := by omega
  simp only [h1, h2, if_false]
  have h5 : (min stop (xs.length : Int) - min start (xs.length : Int)).toNat = 0 := by omega
  rw [h5, List.take_zero]

theorem drop_take_eq_map_getD (l : List ℚ) (k w : Nat) (h : k + w ≤ l.length) :
    (l.drop k).take w = (List.range w).map (fun j => l.getD (k + j) 0) := by
  apply List.ext_getElem
  · simp; omega
  · intro n h1 h2
    simp at h1 h2
    have : k + n < l.length := by omega
    simp [List.getElem_take, List.getD_eq_getElem?_getD, this]

theorem smaAt_early (values : List ℚ) (window : Int) (i : Nat)
    (h : (i : Int) < window - 1) : smaAt values window i = none := by
  simp [smaAt, h]

theorem smaAt_mean (values : List ℚ) (w i : Nat) (hw : 0 < w) (hi : i < values.length)
    (h : ¬ ((i : Int) < (w : Int) - 1)) :
    smaAt values (w : Int) i = some ((windowMeanDouble values w i).toFixed 4) := by
  have _ := hw
  have hk : ((i : Int) - (w : Int) + 1) = ((i + 1 - w : Nat) : Int) := by omega
  have he : ((i : Int) + 1) = ((i + 1 : Nat) : Int) := by omega
  have hlen : i + 1 - w + w ≤ values.length := by omega
  have hsub : i + 1 - (i + 1 - w) = w := by omega
  simp only [smaAt, if_neg h]
  rw [hk, he, jsSlice_inside values (i + 1 - w) (i + 1) (by omega) (by omega), hsub,
    drop_take_eq_map_getD values (i + 1 - w) w hlen, List.map_map]
  rfl

theorem smaAt_nonpositive (values : List ℚ) (window : Int) (i : Nat) (hw : window ≤ 0) :
    smaAt values window i = some (if window = 0 then nan else fin 0) := by
  have h : ¬ ((i : Int) < window - 1) := by omega
  simp only [smaAt, if_neg h]
  rw [jsSlice_empty values _ _ (by omega) (by omega)]
  simp only [List.map_nil, List.foldl_nil, ofInt]
  by_cases h0 : window = 0
  · simp [h0, fin_div_fin, toFixed_nan]
  · have : ((window : Int) : ℚ) ≠ 0 := by exact_mod_cast h0
    rw [fin_zero_div_fin this, toFixed_fin_zero, if_neg h0]

theorem sma_getElem? (values : List ℚ) (window : Int) (i : Nat) (hi : i < values.length) :
    ((List.range values.length).map (smaAt values window))[i]? =
      some (smaAt values window i) := by
  simp [List.getElem?_map, List.getElem?_range hi]

end ChartUtils

/-! ## Claims about `sma` -/

namespace ChartUtils

open JSNumber

/-- C1, refuted as stated: for the doubles `[0.09375, 0, 0, 0, 0]` and
`window = 5` the mean of the window is `0.01875`, which rounds to `0.0188` at 4
decimal places, but the quotient `0.09375 / 5` computed in double arithmetic is
below `0.01875` and `sma` returns `0.0187` at index 4. -/
theorem sma_mean_rounding_differs :
    (∀ v ∈ ([3 / 32, 0, 0, 0, 0] : List ℚ), IsDouble v) ∧
    sma [3 / 32, 0, 0, 0, 0] 5 =
      .ok [none, none, none, none, some (roundDouble (187 / 10000))] ∧
    roundFixed 4 (windowMean [3 / 32, 0, 0, 0, 0] 5 4) = 188 / 10000 ∧
    roundDouble (187 / 10000) ≠ roundDouble (188 / 10000) ∧
    roundDouble (187 / 10000) ≠ fin (188 / 10000) := by
  refine ⟨by decide!, by decide!, by decide!, by decide!, by decide!⟩

/-- C1, amended: for a positive `window`, `sma(values, window)` returns a
sequence that is absent at each index `i < window - 1` and holds at every other
index `i < N` the mean of `values[i-window+1 .. i]` as double arithmetic
computes it (the elements added from left to right and the sum divided by
`window`, each operation rounded to a double), rounded to 4 decimal places by
`toFixed`; and `sma([1,2,3,4,5], 3) = [null, null, 2, 3, 4]`. -/
theorem sma_is_rounded_double_mean (values : List ℚ) (window : Nat) (hw : 0 < window) :
    (∃ out, sma values (window : Int) = .ok out ∧
      ∀ i, i < values.length →
        (((i : Int) < (window : Int) - 1 → out[i]? = some none) ∧
         (¬ ((i : Int) < (window : Int) - 1) →
           out[i]? = some (some ((windowMeanDouble values window i).toFixed 4))))) ∧
    sma [1, 2, 3, 4, 5] 3 = .ok [none, none, some (fin 2), some (fin 3), some (fin 4)] := by
  refine ⟨⟨_, rfl, ?_⟩, by decide!⟩
  intro i hi
  rw [sma_getElem? values _ i hi]
  exact ⟨fun h => by rw [smaAt_early values _ i h],
    fun h => by rw [smaAt_mean values window i hw hi h]⟩

/-- Instance of the amended C1 at `values = [4, 8, 6]`, `window = 2`. -/
theorem sma_is_rounded_double_mean_witness :
    0 < 2 ∧
    ∃ out, sma [4, 8, 6] ((2 : Nat) : Int) = .ok out ∧
      ∀ i, i < ([4, 8, 6] : List ℚ).length →
        (((i : Int) < ((2 : Nat) : Int) - 1 → out[i]? = some none) ∧
         (¬ ((i : Int) < ((2 : Nat) : Int) - 1) →
           out[i]? = some (some ((windowMeanDouble [4, 8, 6] 2 i).toFixed 4)))) :=
  ⟨by decide, (sma_is_rounded_double_mean [4, 8, 6] 2 (by decide)).1⟩

/-- C5: for a positive `window`, `sma(values, window)` returns a sequence as long
as `values`; in particular `sma([], window) = []`. -/
theorem sma_length (values : List ℚ) (window : Int) (hw : 0 < window) :
    (∃ out, sma values window = .ok out ∧ out.length = values.length) ∧
    sma [] window = .ok [] := by
  have _ := hw
  exact ⟨⟨_, rfl, by simp⟩, rfl⟩

/-- Instance of C5 at `values = [4, 8, 6]`, `window = 2`. -/
theorem sma_length_witness :
    (0 : Int) < 2 ∧
    ((∃ out, sma [4, 8, 6] 2 = .ok out ∧ out.length = ([4, 8, 6] : List ℚ).length) ∧
    sma [] 2 = .ok []) :=
  ⟨by decide, sma_length [4, 8, 6] 2 (by decide)⟩

/-- C8, refuted as stated: with `window = 0` the call `sma([1, 2], 0)` does not
fail; it returns `[NaN, NaN]`. -/
theorem sma_window_zero_returns :
    (0 : Int) ≤ 0 ∧ sma [1, 2] 0 = .ok [some nan, some nan] ∧
      ¬ ∃ e, sma [1, 2] 0 = .error e := by
  refine ⟨le_refl 0, by decide!, ?_⟩
  rintro ⟨e, h⟩
  simp [sma] at h

/-- C8, amended: for `window ≤ 0`, `sma(values, window)` does not fail; it
returns a sequence as long as `values` with no absent entry, every entry being
`NaN` when `window = 0` and `0` when `window < 0`. -/
theorem sma_nonpositive_window (values : List ℚ) (window : Int) (hw : window ≤ 0) :
    sma values window =
      .ok (List.replicate values.length (some (if window = 0 then nan else fin 0))) := by
  unfold sma
  congr 1
  apply List.ext_getElem
  · simp
  · intro n h1 h2
    simp [smaAt_nonpositive values window _ hw]

/-- Instance of the amended C8 at `values = [1, 2]`, `window = -3`. -/
theorem sma_nonpositive_window_witness :
    (-3 : Int) ≤ 0 ∧
    sma [1, 2] (-3) =
      .ok (List.replicate ([1, 2] : List ℚ).length
        (some (if (-3 : Int) = 0 then nan else fin 0))) :=
  ⟨by decide, sma_nonpositive_window [1, 2] (-3) (by decide)⟩

end ChartUtils

/-! ## Facts about `rsi`: the shape of the result -/

namespace ChartUtils

open JSNumber

theorem deltas_length : ∀ values : List ℚ, (deltas values).length = values.length - 1
  | [] => rfl
  | [_] => rfl
  | a :: b :: rest => by
      have ih := deltas_length (b :: rest)
      simp [deltas, ih]

theorem deltas_getElem? : ∀ (values : List ℚ) (j : Nat), j + 1 < values.length →
    (deltas values)[j]? = some (deltaDouble values j)
  | [], _, h => by simp at h
  | [_], _, h => by simp at h
  | a :: b :: rest, 0, _ => by
      simp [deltas, deltaDouble]
  | a :: b :: rest, j + 1, h => by
      have h2 : j + 1 < (b :: rest).length := by
        simp only [List.length_cons] at h ⊢
        omega
      have ih := deltas_getElem? (b :: rest) j h2
      simp only [deltas, List.getElem?_cons_succ, ih]
      simp [deltaDouble]

theorem jsIndex_deltas (values : List ℚ) (j : Nat) (h : j + 1 < values.length) :
    jsIndex (deltas values) j = deltaDouble values j := by
  simp [jsIndex, List.getD_eq_getElem?_getD, deltas_getElem? values j h]

theorem deltaDouble_eq (values : List ℚ) (j : Nat) :
    deltaDouble values j = roundDouble (delta values j) := by
  unfold deltaDouble delta
  rw [fin_sub_fin]

theorem rsiLoop_eq_map_states (period : Int) :
    ∀ (ds : List JSNumber) (avg : JSNumber × JSNumber),
      rsiLoop period avg ds =
        (rsiStates period avg ds).map (fun s => some ((rsiVal s).toFixed 2))
  | [], _ => rfl
  | d :: ds, avg => by
      simp [rsiLoop, rsiStates, rsiLoop_eq_map_states period ds]

theorem rsiStates_length (period : Int) :
    ∀ (ds : List JSNumber) (avg : JSNumber × JSNumber),
      (rsiStates period avg ds).length = ds.length
  | [], _ => rfl
  | d :: ds, avg => by
      simp [rsiStates, rsiStates_length period ds]

theorem rsiLoop_length (period : Int) (ds : List JSNumber) (avg : JSNumber × JSNumber) :
    (rsiLoop period avg ds).length = ds.length := by
  rw [rsiLoop_eq_map_states, List.length_map, rsiStates_length]

theorem rsi_short (values : List ℚ) (period : Int)
    (h : (values.length : Int) < period + 1) :
    rsi values period = .ok (List.replicate values.length none) := by
  simp only [rsi, if_pos h]
  congr 1
  apply List.ext_getElem
  · simp
  · intro n h1 h2
    simp

/-- The result of `rsi` when the input is long enough: one `null`, `period`
more, and the entries pushed by the main loop. -/
theorem rsi_long (values : List ℚ) (p : Nat) (h : p + 1 ≤ values.length) :
    rsi values (p : Int) =
      .ok (none :: (List.replicate p none ++
        rsiLoop (p : Int) (seedAverages values (p : Int)) ((deltas values).drop p))) := by
  have hguard : ¬ ((values.length : Int) < (p : Int) + 1) := by omega
  have hfill : jsArrayFillNull (p : Int) = .ok (List.replicate p none) := by
    simp [jsArrayFillNull]
  simp only [rsi, if_neg hguard, hfill, Int.toNat_ofNat, seedAverages]

theorem rsi_long_getElem?_early (p i : Nat) (hi : i ≤ p) (l : List (Option JSNumber)) :
    (none :: (List.replicate p (none : Option JSNumber) ++ l))[i]? = some none := by
  cases i with
  | zero => simp
  | succ i =>
      have hlt : i < (List.replicate p (none : Option JSNumber)).length := by
        simp only [List.length_replicate]; omega
      rw [List.getElem?_cons_succ, List.getElem?_append_left hlt]
      simp only [List.length_replicate] at hlt
      simp [List.getElem?_replicate, hlt]

theorem rsi_long_getElem?_late (p k : Nat) (hk : p ≤ k) (l : List (Option JSNumber)) :
    (none :: (List.replicate p (none : Option JSNumber) ++ l))[k + 1]? = l[k - p]? := by
  rw [List.getElem?_cons_succ, List.getElem?_append_right (by simp [hk])]
  simp

/-- The states of the main loop, one per delta index from `period` on. -/
theorem rsiStates_getElem? (period : Int) :
    ∀ (ds : List JSNumber) (avg : JSNumber × JSNumber) (j : Nat), j < ds.length →
      ∃ s, (rsiStates period avg ds)[j]? = some s
  | [], _, j, h => by simp at h
  | d :: ds, avg, 0, _ => ⟨smooth period avg d, by simp [rsiStates]⟩
  | d :: ds, avg, j + 1, h => by
      have h2 : j < ds.length := by
        simp only [List.length_cons] at h
        omega
      obtain ⟨s, hs⟩ := rsiStates_getElem? period ds (smooth period avg d) j h2
      exact ⟨s, by simp [rsiStates, hs]⟩

end ChartUtils

/-! ## Claims about the shape of the result of `rsi` -/

namespace ChartUtils

open JSNumber

/-- C4: for a positive `period`, `rsi(values, period)` returns a sequence as long
as `values`; when `N ≥ period + 1` the result is one leading null, `period`
nulls and one entry per delta index from `period` to `N - 2`, which add up to
`N`. -/
theorem rsi_length (values : List ℚ) (period : Nat) (hp : 0 < period) :
    ∃ out, rsi values (period : Int) = .ok out ∧ out.length = values.length ∧
      (period + 1 ≤ values.length →
        ∃ vals, out = none :: (List.replicate period none ++ vals) ∧
          vals.length = values.length - 1 - period ∧
          1 + period + (values.length - 1 - period) = values.length) := by
  have _ := hp
  by_cases h : period + 1 ≤ values.length
  · have hl : (rsiLoop (period : Int) (seedAverages values (period : Int))
        ((deltas values).drop period)).length = values.length - 1 - period := by
      rw [rsiLoop_length, List.length_drop, deltas_length]
    refine ⟨_, rsi_long values period h, ?_, ?_⟩
    · simp only [List.length_cons, List.length_append, List.length_replicate, hl]
      omega
    · intro _
      exact ⟨_, rfl, hl, by omega⟩
  · exact ⟨_, rsi_short values period (by omega), by simp, fun h2 => absurd h2 h⟩

/-- Instance of C4 at `values = [1, 3, 2, 5, 4]`, `period = 2`. -/
theorem rsi_length_witness :
    0 < 2 ∧
    ∃ out, rsi [1, 3, 2, 5, 4] ((2 : Nat) : Int) = .ok out ∧
      out.length = ([1, 3, 2, 5, 4] : List ℚ).length ∧
      (2 + 1 ≤ ([1, 3, 2, 5, 4] : List ℚ).length →
        ∃ vals, out = none :: (List.replicate 2 none ++ vals) ∧
          vals.length = ([1, 3, 2, 5, 4] : List ℚ).length - 1 - 2 ∧
          1 + 2 + (([1, 3, 2, 5, 4] : List ℚ).length - 1 - 2)
            = ([1, 3, 2, 5, 4] : List ℚ).length) :=
  ⟨by decide, rsi_length [1, 3, 2, 5, 4] 2 (by decide)⟩

/-- C11: for a positive `period` and an input of length `N < period + 1`,
`rsi(values, period)` is the all-absent sequence of length `N`. -/
theorem rsi_short_all_absent (values : List ℚ) (period : Nat) (hp : 0 < period)
    (hN : values.length < period + 1) :
    rsi values (period : Int) = .ok (List.replicate values.length none) ∧
    ∃ out, rsi values (period : Int) = .ok out ∧ out.length = values.length ∧
      ∀ i, i < values.length → out[i]? = some none := by
  have _ := hp
  have h := rsi_short values (period : Int) (by omega)
  refine ⟨h, _, h, by simp, ?_⟩
  intro i hi
  simp [List.getElem?_replicate, hi]

/-- Instance of C11 at `values = [1, 3, 2]`, `period = 3`. -/
theorem rsi_short_all_absent_witness :
    (0 < 3 ∧ ([1, 3, 2] : List ℚ).length < 3 + 1) ∧
    rsi [1, 3, 2] ((3 : Nat) : Int) = .ok (List.replicate ([1, 3, 2] : List ℚ).length none) :=
  ⟨by decide, (rsi_short_all_absent [1, 3, 2] 3 (by decide) (by decide)).1⟩

end ChartUtils

/-! ## Facts about `rsi`: leading parts of the input -/

namespace ChartUtils

open JSNumber

theorem deltas_take : ∀ (values : List ℚ) (m : Nat),
    deltas (values.take m) = (deltas values).take (m - 1)
  | [], m => by simp [deltas]
  | [a], m => by
      cases m with
      | zero => simp [deltas]
      | succ m => simp [deltas]
  | a :: b :: rest, 0 => by simp [deltas]
  | a :: b :: rest, 1 => by simp [deltas]
  | a :: b :: rest, m + 2 => by
      have ih := deltas_take (b :: rest) (m + 1)
      simp only [List.take_succ_cons] at ih ⊢
      simp only [deltas, ih]
      simp

theorem jsIndex_take (ds : List JSNumber) (n i : Nat) (h : i < n) :
    jsIndex (ds.take n) i = jsIndex ds i := by
  simp [jsIndex, List.getD_eq_getElem?_getD, List.getElem?_take, h]

theorem seed_foldl_congr (ds ds2 : List JSNumber) :
    ∀ (n : Nat), (∀ i, i < n → jsIndex ds i = jsIndex ds2 i) →
      (List.range n).foldl (seedStep ds) (fin 0, fin 0) =
        (List.range n).foldl (seedStep ds2) (fin 0, fin 0)
  | 0, _ => rfl
  | n + 1, h => by
      have ih := seed_foldl_congr ds ds2 n (fun i hi => h i (by omega))
      rw [List.range_succ, List.foldl_append, List.foldl_append, ih]
      simp only [List.foldl_cons, List.foldl_nil, seedStep, h n (by omega)]

theorem seedAverages_take (values : List ℚ) (p m : Nat) (h : p + 1 ≤ m) :
    seedAverages (values.take m) (p : Int) = seedAverages values (p : Int) := by
  have e : seedSums (deltas (values.take m)) (p : Int) = seedSums (deltas values) (p : Int) := by
    unfold seedSums
    rw [Int.toNat_ofNat, deltas_take]
    exact seed_foldl_congr _ _ p (fun i hi => jsIndex_take _ _ _ (by omega))
  unfold seedAverages
  rw [e]

theorem rsiLoop_take (period : Int) :
    ∀ (l : List JSNumber) (avg : JSNumber × JSNumber) (n : Nat),
      rsiLoop period avg (l.take n) = (rsiLoop period avg l).take n
  | [], _, n => by simp [rsiLoop]
  | d :: l, avg, 0 => by simp [rsiLoop]
  | d :: l, avg, n + 1 => by
      simp only [List.take_succ_cons, rsiLoop, rsiLoop_take period l]

/-- The result of `rsi` on the first `m` values is the first `m` entries of the
result on all of them. -/
theorem rsi_take (values : List ℚ) (p : Nat) (m : Nat) (hm : m ≤ values.length) :
    ∃ out, rsi values (p : Int) = .ok out ∧ rsi (values.take m) (p : Int) = .ok (out.take m) := by
  have hlen : (values.take m).length = m := by
    rw [List.length_take]; omega
  by_cases hN : p + 1 ≤ values.length
  · refine ⟨_, rsi_long values p hN, ?_⟩
    by_cases hmp : p + 1 ≤ m
    · rw [rsi_long (values.take m) p (by omega), seedAverages_take values p m hmp, deltas_take,
        List.drop_take, rsiLoop_take]
      congr 1
      obtain ⟨n, rfl⟩ : ∃ n, m = p + n + 1 := ⟨m - 1 - p, by omega⟩
      have e1 : p + n + 1 - 1 - p = n := by omega
      rw [e1, List.take_succ_cons]
      congr 1
      have e2 : min (p + n) p = p := by omega
      have e3 : p + n - p = n := by omega
      rw [List.take_append_eq_append_take, List.take_replicate, List.length_replicate, e2, e3]
    · rw [rsi_short (values.take m) (p : Int) (by omega), hlen]
      congr 1
      apply List.ext_getElem?
      intro i
      rw [List.getElem?_take]
      by_cases hi : i < m
      · rw [if_pos hi, rsi_long_getElem?_early p i (by omega)]
        simp [List.getElem?_replicate, hi]
      · rw [if_neg hi]
        apply List.getElem?_eq_none
        simp
        omega
  · refine ⟨_, rsi_short values (p : Int) (by omega), ?_⟩
    rw [rsi_short (values.take m) (p : Int) (by omega), hlen, List.take_replicate,
      Nat.min_eq_left hm]

theorem getElem?_of_take_eq {α : Type} (a b : List α) (i : Nat)
    (h : a.take (i + 1) = b.take (i + 1)) : a[i]? = b[i]? := by
  have h1 : (a.take (i + 1))[i]? = a[i]? := by
    rw [List.getElem?_take, if_pos (Nat.lt_succ_self i)]
  have h2 : (b.take (i + 1))[i]? = b[i]? := by
    rw [List.getElem?_take, if_pos (Nat.lt_succ_self i)]
  rw [← h1, ← h2, h]

end ChartUtils

/-! ## Claims about the dependence of `rsi` on the past only -/

namespace ChartUtils

open JSNumber

/-- C12: for a positive `period`, the entry `rsi(values, period)[i]` is
determined by `values[0..i]` alone: the result on any leading part of `values`
is the leading part of the same length of `rsi(values, period)`, in particular
`rsi(values[0..i], period)[i] = rsi(values, period)[i]`, and any input that
agrees with `values` up to index `i` gives the same entry at `i`. -/
theorem rsi_depends_on_past (values : List ℚ) (period : Nat) (hp : 0 < period) :
    ∃ out, rsi values (period : Int) = .ok out ∧
      (∀ m, m ≤ values.length → rsi (values.take m) (period : Int) = .ok (out.take m)) ∧
      (∀ i, i < values.length →
        ∃ pre, rsi (values.take (i + 1)) (period : Int) = .ok pre ∧ pre[i]? = out[i]?) ∧
      (∀ (other : List ℚ) (i : Nat), i < values.length →
        other.take (i + 1) = values.take (i + 1) →
        ∃ out2, rsi other (period : Int) = .ok out2 ∧ out2[i]? = out[i]?) := by
  have _ := hp
  obtain ⟨out, hout, _⟩ := rsi_take values period values.length (le_refl _)
  have key : ∀ m, m ≤ values.length →
      rsi (values.take m) (period : Int) = .ok (out.take m) := by
    intro m hm
    obtain ⟨out1, h1, h2⟩ := rsi_take values period m hm
    rw [hout] at h1
    cases h1
    exact h2
  refine ⟨out, hout, key, ?_, ?_⟩
  · intro i hi
    exact ⟨_, key (i + 1) (by omega), getElem?_of_take_eq _ _ i (by simp)⟩
  · intro other i hi hsame
    have hlen : i + 1 ≤ other.length := by
      have h := congrArg List.length hsame
      simp only [List.length_take] at h
      omega
    obtain ⟨out2, h1, h2⟩ := rsi_take other period (i + 1) hlen
    refine ⟨out2, h1, getElem?_of_take_eq _ _ i ?_⟩
    rw [hsame, key (i + 1) (by omega)] at h2
    exact (Except.ok.inj h2).symm

/-- Instance of C12 at `values = [1, 3, 2, 5, 4]`, `period = 2`. -/
theorem rsi_depends_on_past_witness :
    0 < 2 ∧
    ∃ out, rsi [1, 3, 2, 5, 4] ((2 : Nat) : Int) = .ok out ∧
      (∀ m, m ≤ ([1, 3, 2, 5, 4] : List ℚ).length →
        rsi (([1, 3, 2, 5, 4] : List ℚ).take m) ((2 : Nat) : Int) = .ok (out.take m)) ∧
      (∀ i, i < ([1, 3, 2, 5, 4] : List ℚ).length →
        ∃ pre, rsi (([1, 3, 2, 5, 4] : List ℚ).take (i + 1)) ((2 : Nat) : Int) = .ok pre ∧
          pre[i]? = out[i]?) ∧
      (∀ (other : List ℚ) (i : Nat), i < ([1, 3, 2, 5, 4] : List ℚ).length →
        other.take (i + 1) = ([1, 3, 2, 5, 4] : List ℚ).take (i + 1) →
        ∃ out2, rsi other ((2 : Nat) : Int) = .ok out2 ∧ out2[i]? = out[i]?) :=
  ⟨by decide, rsi_depends_on_past [1, 3, 2, 5, 4] 2 (by decide)⟩

end ChartUtils

/-! ## Facts about `rsi`: the averages are never negative -/

namespace ChartUtils

open JSNumber

theorem isDouble_one : IsDouble 1 := by decide!

theorem isDouble_hundred : IsDouble 100 := by decide!

theorem nn_of_atLeast (c : ℚ) (x : JSNumber) (h : AtLeast c x) (hc : 0 ≤ c) :
    NonnegOrNaN x := by
  cases x with
  | fin q => exact le_trans hc h
  | nan => trivial
  | posInf => trivial
  | negInf => exact h

theorem nn_roundDouble (x : ℚ) (h : 0 ≤ x) : NonnegOrNaN (roundDouble x) :=
  nn_of_atLeast 0 _ (atLeast_roundDouble 0 x isDouble_zero h) (le_refl 0)

theorem fin_of_atLeast_atMost (a b : ℚ) (x : JSNumber) (h1 : AtLeast a x) (h2 : AtMost b x) :
    ∃ w : ℚ, x = fin w ∧ a ≤ w ∧ w ≤ b := by
  cases x with
  | fin q => exact ⟨q, rfl, h1, h2⟩
  | nan => exact absurd h1 (by simp [AtLeast])
  | posInf => exact absurd h2 (by simp [AtMost])
  | negInf => exact absurd h1 (by simp [AtLeast])

theorem roundDouble_mem (a b x : ℚ) (ha : IsDouble a) (hb : IsDouble b) (h1 : a ≤ x)
    (h2 : x ≤ b) : ∃ w : ℚ, roundDouble x = fin w ∧ a ≤ w ∧ w ≤ b :=
  fin_of_atLeast_atMost a b _ (atLeast_roundDouble a x ha h1) (atMost_roundDouble b x hb h2)

theorem nn_add (x y : JSNumber) (hx : NonnegOrNaN x) (hy : NonnegOrNaN y) :
    NonnegOrNaN (x + y) := by
  cases x <;> cases y <;> try trivial
  exact nn_roundDouble _ (add_nonneg hx hy)

theorem nn_mul (x y : JSNumber) (hx : NonnegOrNaN x) (hy : NonnegOrNaN y) :
    NonnegOrNaN (x * y) := by
  cases x with
  | fin a =>
      cases y with
      | fin b => exact nn_roundDouble _ (mul_nonneg hx hy)
      | nan => trivial
      | posInf =>
          show NonnegOrNaN (if a = 0 then nan else if 0 < a then posInf else negInf)
          split
          · trivial
          · rename_i h0
            rw [if_pos (lt_of_le_of_ne hx (Ne.symm h0))]
            trivial
      | negInf => exact absurd hy (by simp [NonnegOrNaN])
  | nan => cases y <;> trivial
  | posInf =>
      cases y with
      | fin b =>
          show NonnegOrNaN (if b = 0 then nan else if 0 < b then posInf else negInf)
          split
          · trivial
          · rename_i h0
            rw [if_pos (lt_of_le_of_ne hy (Ne.symm h0))]
            trivial
      | nan => trivial
      | posInf => trivial
      | negInf => exact absurd hy (by simp [NonnegOrNaN])
  | negInf => exact absurd hx (by simp [NonnegOrNaN])

theorem nn_div (x y : JSNumber) (hx : NonnegOrNaN x) (hy : NonnegOrNaN y) :
    NonnegOrNaN (x / y) := by
  cases x with
  | fin a =>
      cases y with
      | fin b =>
          show NonnegOrNaN (if b = 0 then (if a = 0 then nan else if 0 < a then posInf
            else negInf) else roundDouble (a / b))
          split
          · split
            · trivial
            · rename_i h0
              rw [if_pos (lt_of_le_of_ne hx (Ne.symm h0))]
              trivial
          · exact nn_roundDouble _ (div_nonneg hx hy)
      | nan => trivial
      | posInf => exact le_refl (0 : ℚ)
      | negInf => exact absurd hy (by simp [NonnegOrNaN])
  | nan => cases y <;> trivial
  | posInf =>
      cases y with
      | fin b =>
          have hb : (0 : ℚ) ≤ b := hy
          show NonnegOrNaN (if 0 ≤ b then posInf else negInf)
          rw [if_pos hb]
          trivial
      | nan => trivial
      | posInf => trivial
      | negInf => exact absurd hy (by simp [NonnegOrNaN])
  | negInf => exact absurd hx (by simp [NonnegOrNaN])

theorem nn_abs (d : JSNumber) : NonnegOrNaN d.abs := by
  cases d with
  | fin q => exact abs_nonneg q
  | nan => trivial
  | posInf => trivial
  | negInf => trivial

theorem nn_of_gtZero (d : JSNumber) (h : d.gtZero = true) : NonnegOrNaN d := by
  cases d with
  | fin q =>
      have : 0 < q := by simpa [gtZero] using h
      exact this.le
  | nan => trivial
  | posInf => trivial
  | negInf => simp [gtZero] at h

theorem nn_fin_zero : NonnegOrNaN (fin 0) := le_refl (0 : ℚ)

theorem nn_ofInt (n : Int) (h : 0 ≤ n) : NonnegOrNaN (ofInt n) := by
  show (0 : ℚ) ≤ (n : ℚ)
  exact_mod_cast h

theorem nn_seedStep (ds : List JSNumber) (acc : JSNumber × JSNumber) (i : Nat)
    (h : NonnegOrNaN acc.1 ∧ NonnegOrNaN acc.2) :
    NonnegOrNaN (seedStep ds acc i).1 ∧ NonnegOrNaN (seedStep ds acc i).2 := by
  unfold seedStep
  by_cases hd : (jsIndex ds i).gtZero = true
  · simp only [hd, if_true]
    exact ⟨nn_add _ _ h.1 (nn_of_gtZero _ hd), h.2⟩
  · simp only [hd]
    exact ⟨h.1, nn_add _ _ h.2 (nn_abs _)⟩

theorem nn_seed_foldl (ds : List JSNumber) : ∀ n : Nat,
    NonnegOrNaN ((List.range n).foldl (seedStep ds) (fin 0, fin 0)).1 ∧
      NonnegOrNaN ((List.range n).foldl (seedStep ds) (fin 0, fin 0)).2
  | 0 => ⟨nn_fin_zero, nn_fin_zero⟩
  | n + 1 => by
      rw [List.range_succ, List.foldl_append]
      exact nn_seedStep ds _ n (nn_seed_foldl ds n)

theorem nn_seedAverages (values : List ℚ) (p : Nat) :
    NonnegOrNaN (seedAverages values (p : Int)).1 ∧
      NonnegOrNaN (seedAverages values (p : Int)).2 := by
  have h := nn_seed_foldl (deltas values) p
  have hp : NonnegOrNaN (ofInt (p : Int)) := nn_ofInt _ (by omega)
  unfold seedAverages seedSums
  rw [Int.toNat_ofNat]
  exact ⟨nn_div _ _ h.1 hp, nn_div _ _ h.2 hp⟩

theorem nn_smooth (p : Nat) (hp : 0 < p) (avg : JSNumber × JSNumber) (d : JSNumber)
    (h : NonnegOrNaN avg.1 ∧ NonnegOrNaN avg.2) :
    NonnegOrNaN (smooth (p : Int) avg d).1 ∧ NonnegOrNaN (smooth (p : Int) avg d).2 := by
  have hp0 : NonnegOrNaN (ofInt (p : Int)) := nn_ofInt _ (by omega)
  have hp1 : NonnegOrNaN (ofInt ((p : Int) - 1)) := nn_ofInt _ (by omega)
  unfold smooth
  by_cases hd : d.gtZero = true
  · simp only [hd, if_true]
    exact ⟨nn_div _ _ (nn_add _ _ (nn_mul _ _ h.1 hp1) (nn_of_gtZero _ hd)) hp0,
      nn_div _ _ (nn_add _ _ (nn_mul _ _ h.2 hp1) nn_fin_zero) hp0⟩
  · simp only [hd]
    exact ⟨nn_div _ _ (nn_add _ _ (nn_mul _ _ h.1 hp1) nn_fin_zero) hp0,
      nn_div _ _ (nn_add _ _ (nn_mul _ _ h.2 hp1) (nn_abs _)) hp0⟩

theorem nn_rsiStates (p : Nat) (hp : 0 < p) :
    ∀ (ds : List JSNumber) (avg : JSNumber × JSNumber),
      NonnegOrNaN avg.1 ∧ NonnegOrNaN avg.2 →
      ∀ s ∈ rsiStates (p : Int) avg ds, NonnegOrNaN s.1 ∧ NonnegOrNaN s.2
  | [], _, _, s, hs => by simp [rsiStates] at hs
  | d :: ds, avg, h, s, hs => by
      simp only [rsiStates, List.mem_cons] at hs
      rcases hs with rfl | hs
      · exact nn_smooth p hp avg d h
      · exact nn_rsiStates p hp ds _ (nn_smooth p hp avg d h) s hs

/-- The divisor `1 + rs` is `NaN`, `Infinity` or at least `1`. -/
theorem one_add_nn (rs : JSNumber) (h : NonnegOrNaN rs) :
    fin 1 + rs = nan ∨ AtLeast 1 (fin 1 + rs) := by
  cases rs with
  | fin r =>
      right
      rw [fin_add_fin]
      exact atLeast_roundDouble 1 _ isDouble_one (by linarith [show (0 : ℚ) ≤ r from h])
  | nan => exact Or.inl rfl
  | posInf => exact Or.inr trivial
  | negInf => exact absurd h (by simp [NonnegOrNaN])

theorem hundred_div_mem (y : JSNumber) (h : AtLeast 1 y) :
    ∃ w : ℚ, fin 100 / y = fin w ∧ 0 ≤ w ∧ w ≤ 100 := by
  cases y with
  | fin v =>
      have hv : (1 : ℚ) ≤ v := h
      have hne : v ≠ 0 := by linarith
      rw [fin_div_fin_of_ne _ hne]
      apply roundDouble_mem 0 100 _ isDouble_zero isDouble_hundred
      · positivity
      · rw [div_le_iff₀ (by linarith)]
        linarith
  | nan => exact absurd h (by simp [AtLeast])
  | posInf => exact ⟨0, rfl, le_refl _, by norm_num⟩
  | negInf => exact absurd h (by simp [AtLeast])

theorem hundred_sub_mem (w : ℚ) (h0 : 0 ≤ w) (h1 : w ≤ 100) :
    ∃ r : ℚ, fin 100 - fin w = fin r ∧ 0 ≤ r ∧ r ≤ 100 := by
  rw [fin_sub_fin]
  exact roundDouble_mem 0 100 _ isDouble_zero isDouble_hundred (by linarith) (by linarith)

theorem rsiVal_mem (avg : JSNumber × JSNumber)
    (h : NonnegOrNaN avg.1 ∧ NonnegOrNaN avg.2) : InRangeOrNaN (rsiVal avg) := by
  unfold rsiVal
  by_cases hz : avg.2.isZero = true
  · simp only [hz, if_true]
    exact Or.inr ⟨100, rfl, by norm_num, le_refl _⟩
  · simp only [hz]
    rcases one_add_nn _ (nn_div _ _ h.1 h.2) with hnan | hge
    · left
      simp only [Bool.false_eq_true, if_false, hnan, div_nan, sub_nan]
    · right
      simp only [Bool.false_eq_true, if_false]
      obtain ⟨w, hw, w0, w1⟩ := hundred_div_mem _ hge
      rw [hw]
      exact hundred_sub_mem w w0 w1

theorem roundFixed_two_mem (r : ℚ) (h0 : 0 ≤ r) (h1 : r ≤ 100) :
    0 ≤ roundFixed 2 r ∧ roundFixed 2 r ≤ 100 := by
  have hneg : ¬ (r < 0) := not_lt.mpr h0
  simp only [roundFixed, if_neg hneg]
  have hfl0 : (0 : ℤ) ≤ ⌊r * 10 ^ 2 + 1 / 2⌋ := by
    apply Int.floor_nonneg.mpr
    positivity
  have hfl1 : ⌊r * 10 ^ 2 + 1 / 2⌋ ≤ (10000 : ℤ) := by
    have : ⌊r * 10 ^ 2 + 1 / 2⌋ < (10000 : ℤ) + 1 := by
      apply Int.floor_lt.mpr
      push_cast
      nlinarith
    omega
  have c0 : (0 : ℚ) ≤ ((⌊r * 10 ^ 2 + 1 / 2⌋ : ℤ) : ℚ) := by exact_mod_cast hfl0
  have c1 : ((⌊r * 10 ^ 2 + 1 / 2⌋ : ℤ) : ℚ) ≤ 10000 := by exact_mod_cast hfl1
  constructor
  · positivity
  · rw [div_le_iff₀ (by norm_num)]
    linarith

theorem toFixed_two_mem (x : JSNumber) (h : InRangeOrNaN x) : InRangeOrNaN (x.toFixed 2) := by
  rcases h with rfl | ⟨r, rfl, r0, r1⟩
  · exact Or.inl rfl
  · right
    rw [toFixed_fin]
    have hm := roundFixed_two_mem r r0 r1
    exact roundDouble_mem 0 100 _ isDouble_zero isDouble_hundred hm.1 hm.2

/-- Every entry of `rsi` for a positive period is `null`, `NaN` or in `[0, 100]`. -/
theorem rsi_entries_mem (values : List ℚ) (period : Nat) (hp : 0 < period) :
    ∃ out, rsi values (period : Int) = .ok out ∧
      ∀ x ∈ out, x = none ∨ x = some nan ∨ ∃ r : ℚ, x = some (fin r) ∧ 0 ≤ r ∧ r ≤ 100 := by
  by_cases h : period + 1 ≤ values.length
  · refine ⟨_, rsi_long values period h, ?_⟩
    intro x hx
    rcases List.mem_cons.mp hx with rfl | hx
    · exact Or.inl rfl
    · rcases List.mem_append.mp hx with hx | hx
      · exact Or.inl (List.eq_of_mem_replicate hx)
      · rw [rsiLoop_eq_map_states] at hx
        obtain ⟨s, hs, rfl⟩ := List.mem_map.mp hx
        have hnn := nn_rsiStates period hp _ _ (nn_seedAverages values period) s hs
        rcases toFixed_two_mem _ (rsiVal_mem s hnn) with e | ⟨r, e, r0, r1⟩
        · exact Or.inr (Or.inl (by rw [e]))
        · exact Or.inr (Or.inr ⟨r, by rw [e], r0, r1⟩)
  · refine ⟨_, rsi_short values period (by omega), ?_⟩
    intro x hx
    exact Or.inl (List.eq_of_mem_replicate hx)

end ChartUtils

/-! ## Claims about the range of `rsi` and about failures -/

namespace ChartUtils

open JSNumber

/-- C3, refuted as stated: for the doubles `[2^1023, -2^1023, 2^1023]` and
`period = 1` the differences overflow to `-Infinity` and `Infinity`, the product
`Infinity * 0` in the smoothing step is `NaN`, and `rsi` returns `NaN` at
index 2, which is neither absent nor a number in `[0, 100]`. -/
theorem rsi_overflow_gives_nan :
    (∀ v ∈ ([2 ^ 1023, -2 ^ 1023, 2 ^ 1023] : List ℚ), IsDouble v) ∧
    rsi [2 ^ 1023, -2 ^ 1023, 2 ^ 1023] 1 = .ok [none, none, some nan] ∧
    ¬ ∃ out, rsi [2 ^ 1023, -2 ^ 1023, 2 ^ 1023] 1 = .ok out ∧
      ∀ x ∈ out, x = none ∨ ∃ r : ℚ, x = some (fin r) ∧ 0 ≤ r ∧ r ≤ 100 := by
  have h : rsi [2 ^ 1023, -2 ^ 1023, 2 ^ 1023] 1 = .ok [none, none, some nan] := by decide!
  refine ⟨by decide!, h, ?_⟩
  rintro ⟨out, h1, h2⟩
  rw [h] at h1
  have e := Except.ok.inj h1
  rcases h2 (some nan) (by rw [← e]; simp) with h3 | ⟨r, h3, _⟩
  · exact absurd h3 (by simp)
  · exact absurd h3 (by simp)

/-- C3, amended: for a positive `period`, every element of `rsi(values, period)`
is absent, `NaN`, or a number `r` with `0 ≤ r ≤ 100`; this rests on `avgGain` and
`avgLoss` each being `NaN`, `Infinity` or a non-negative number after the seed
and after every smoothing step. -/
theorem rsi_in_range_or_nan (values : List ℚ) (period : Nat) (hp : 0 < period) :
    (∃ out, rsi values (period : Int) = .ok out ∧
      ∀ x ∈ out, x = none ∨ x = some nan ∨ ∃ r : ℚ, x = some (fin r) ∧ 0 ≤ r ∧ r ≤ 100) ∧
    (NonnegOrNaN (seedAverages values (period : Int)).1 ∧
      NonnegOrNaN (seedAverages values (period : Int)).2) ∧
    (∀ (avg : JSNumber × JSNumber) (d : JSNumber),
      NonnegOrNaN avg.1 ∧ NonnegOrNaN avg.2 →
      NonnegOrNaN (smooth (period : Int) avg d).1 ∧
        NonnegOrNaN (smooth (period : Int) avg d).2) :=
  ⟨rsi_entries_mem values period hp, nn_seedAverages values period,
    fun avg d h => nn_smooth period hp avg d h⟩

/-- Instance of the amended C3 at `values = [1, 3, 2, 5, 4]`, `period = 2`. -/
theorem rsi_in_range_or_nan_witness :
    0 < 2 ∧
    ∃ out, rsi [1, 3, 2, 5, 4] ((2 : Nat) : Int) = .ok out ∧
      ∀ x ∈ out, x = none ∨ x = some nan ∨ ∃ r : ℚ, x = some (fin r) ∧ 0 ≤ r ∧ r ≤ 100 :=
  ⟨by decide, (rsi_in_range_or_nan [1, 3, 2, 5, 4] 2 (by decide)).1⟩

/-- C10: for positive `window` and `period`, `sma` and `rsi` return a sequence
without failing.  Every read is in bounds: each slice of `sma` has exactly
`window` elements, each difference is computed from two elements of `values`,
and in the long branch every seed index `i < period` is below the length `N - 1`
of the differences.  No divisor is zero: `window` and `period` are not, the
division by `avgLoss` is made only when `avgLoss` is not zero, and for every
pair `(avgGain, avgLoss)` that the loop reaches with a non-zero `avgLoss` the
divisor `1 + avgGain/avgLoss` is not zero either. -/
theorem indicators_total (values : List ℚ) (window period : Nat) (hw : 0 < window)
    (hp : 0 < period) :
    (∃ out, sma values (window : Int) = .ok out) ∧
    (∃ out, rsi values (period : Int) = .ok out) ∧
    (∀ i, i < values.length → ¬ ((i : Int) < (window : Int) - 1) →
      (jsSlice values ((i : Int) - window + 1) ((i : Int) + 1)).length = window) ∧
    (∀ j, j + 1 < values.length →
      (deltas values)[j]? = some (fin (values.getD (j + 1) 0) - fin (values.getD j 0))) ∧
    (¬ ((values.length : Int) < (period : Int) + 1) →
      ∀ i, i < period → i < (deltas values).length) ∧
    (ofInt (window : Int)).isZero = false ∧ (ofInt (period : Int)).isZero = false ∧
    (∀ avg : JSNumber × JSNumber, avg.2.isZero = true → rsiVal avg = fin 100) ∧
    (∀ s ∈ seedAverages values (period : Int) ::
          rsiStates (period : Int) (seedAverages values (period : Int))
            ((deltas values).drop (period : Int).toNat),
      s.2.isZero = false → (fin 1 + s.1 / s.2).isZero = false) := by
  refine ⟨⟨_, rfl⟩, ?_, ?_, ?_, ?_, ?_, ?_, ?_, ?_⟩
  · obtain ⟨out, hout, _⟩ := rsi_entries_mem values period hp
    exact ⟨out, hout⟩
  · intro i hi h
    have hk : ((i : Int) - (window : Int) + 1) = ((i + 1 - window : Nat) : Int) := by omega
    have he : ((i : Int) + 1) = ((i + 1 : Nat) : Int) := by omega
    rw [hk, he, jsSlice_inside values (i + 1 - window) (i + 1) (by omega) (by omega)]
    simp
    omega
  · exact fun j hj => deltas_getElem? values j hj
  · intro h i hi
    rw [deltas_length]
    omega
  · simp [ofInt, isZero, hw.ne']
  · simp [ofInt, isZero, hp.ne']
  · intro avg h
    simp [rsiVal, h]
  · intro s hs hz
    have hnn : NonnegOrNaN s.1 ∧ NonnegOrNaN s.2 := by
      rcases List.mem_cons.mp hs with rfl | hs
      · exact nn_seedAverages values period
      · exact nn_rsiStates period hp _ _ (nn_seedAverages values period) s hs
    rcases one_add_nn _ (nn_div _ _ hnn.1 hnn.2) with e | e
    · rw [e]
      rfl
    · revert e
      cases fin 1 + s.1 / s.2 with
      | fin v =>
          intro e
          have hv : (1 : ℚ) ≤ v := e
          have hne : v ≠ 0 := by linarith
          simp [isZero, hne]
      | nan => intro _; rfl
      | posInf => intro _; rfl
      | negInf => intro _; rfl

/-- Instance of C10 at `values = [1, 3, 2, 5, 4]`, `window = 2`, `period = 2`:
both calls return. -/
theorem indicators_total_witness :
    (0 < 2 ∧ 0 < 2) ∧
    (∃ out, sma [1, 3, 2, 5, 4] ((2 : Nat) : Int) = .ok out) ∧
    (∃ out, rsi [1, 3, 2, 5, 4] ((2 : Nat) : Int) = .ok out) :=
  ⟨by decide,
    (indicators_total [1, 3, 2, 5, 4] 2 2 (by decide) (by decide)).1,
    (indicators_total [1, 3, 2, 5, 4] 2 2 (by decide) (by decide)).2.1⟩

/-- C13: for a positive `period` and an input of length `N ≥ period + 1`, the
entries of `rsi(values, period)` at the indices `0 .. period` are absent and
every index `i` with `period + 1 ≤ i < N` holds a value of the number type, never
`null` (it is `NaN` or lies in `[0, 100]`); an input of length exactly
`period + 1` gives the all-absent sequence. -/
theorem rsi_leading_absent (values : List ℚ) (period : Nat) (hp : 0 < period)
    (hN : period + 1 ≤ values.length) :
    ∃ out, rsi values (period : Int) = .ok out ∧
      (∀ i, i ≤ period → out[i]? = some none) ∧
      (∀ i, period + 1 ≤ i → i < values.length →
        ∃ x : JSNumber, out[i]? = some (some x) ∧ InRangeOrNaN x) ∧
      (values.length = period + 1 → out = List.replicate values.length none) := by
  refine ⟨_, rsi_long values period hN, ?_, ?_, ?_⟩
  · intro i hi
    exact rsi_long_getElem?_early period i hi _
  · intro i hi1 hi2
    obtain ⟨k, rfl⟩ : ∃ k, i = k + 1 := ⟨i - 1, by omega⟩
    rw [rsi_long_getElem?_late period k (by omega), rsiLoop_eq_map_states]
    have hlen : k - period < ((deltas values).drop period).length := by
      rw [List.length_drop, deltas_length]
      omega
    obtain ⟨s, hs⟩ := rsiStates_getElem? (period : Int) _ (seedAverages values (period : Int))
      (k - period) hlen
    have hmem : s ∈ rsiStates (period : Int) (seedAverages values (period : Int))
        ((deltas values).drop period) := List.getElem?_mem hs
    have hnn := nn_rsiStates period hp _ _ (nn_seedAverages values period) s hmem
    exact ⟨(rsiVal s).toFixed 2, by simp [List.getElem?_map, hs],
      toFixed_two_mem _ (rsiVal_mem s hnn)⟩
  · intro h
    have h0 : (deltas values).drop period = [] := by
      apply List.drop_eq_nil_of_le
      rw [deltas_length]
      omega
    rw [h0, h]
    simp [rsiLoop, List.replicate_succ]

/-- Instance of C13 at `values = [1, 3, 2, 5, 4]`, `period = 2`. -/
theorem rsi_leading_absent_witness :
    (0 < 2 ∧ 2 + 1 ≤ ([1, 3, 2, 5, 4] : List ℚ).length) ∧
    ∃ out, rsi [1, 3, 2, 5, 4] ((2 : Nat) : Int) = .ok out ∧
      (∀ i, i ≤ 2 → out[i]? = some none) ∧
      (∀ i, 2 + 1 ≤ i → i < ([1, 3, 2, 5, 4] : List ℚ).length →
        ∃ x : JSNumber, out[i]? = some (some x) ∧ InRangeOrNaN x) ∧
      (([1, 3, 2, 5, 4] : List ℚ).length = 2 + 1 →
        out = List.replicate ([1, 3, 2, 5, 4] : List ℚ).length none) :=
  ⟨by decide, rsi_leading_absent [1, 3, 2, 5, 4] 2 (by decide) (by decide)⟩

end ChartUtils

/-! ## Facts about `rsi` on inputs with no decrease -/

namespace ChartUtils

open JSNumber

theorem mem_deltas (values : List ℚ) (d : JSNumber) (h : d ∈ deltas values) :
    ∃ j, j + 1 < values.length ∧ d = deltaDouble values j := by
  obtain ⟨j, hj, e⟩ := List.getElem_of_mem h
  have hj2 : j + 1 < values.length := by
    rw [deltas_length] at hj
    omega
  have := deltas_getElem? values j hj2
  rw [List.getElem?_eq_getElem hj] at this
  exact ⟨j, hj2, by rw [← e]; exact Option.some.inj this⟩

theorem mem_drop_deltas (values : List ℚ) (p : Nat) (d : JSNumber)
    (h : d ∈ (deltas values).drop p) :
    ∃ j, j + 1 < values.length ∧ d = deltaDouble values j :=
  mem_deltas values d (List.mem_of_mem_drop h)

theorem delta_nonneg_of_nondecreasing (values : List ℚ)
    (hmono : ∀ i, i + 1 < values.length → values.getD i 0 ≤ values.getD (i + 1) 0)
    (j : Nat) (hj : j + 1 < values.length) : 0 ≤ delta values j := by
  have := hmono j hj
  unfold delta
  linarith

theorem deltaDouble_atLeast_zero (values : List ℚ)
    (hmono : ∀ i, i + 1 < values.length → values.getD i 0 ≤ values.getD (i + 1) 0)
    (j : Nat) (hj : j + 1 < values.length) : AtLeast 0 (deltaDouble values j) := by
  rw [deltaDouble_eq]
  exact atLeast_roundDouble 0 _ isDouble_zero (delta_nonneg_of_nondecreasing values hmono j hj)

theorem abs_eq_zero_of_atLeast (d : JSNumber) (h : AtLeast 0 d) (hg : d.gtZero = false) :
    d.abs = fin 0 := by
  cases d with
  | fin q =>
      have h1 : (0 : ℚ) ≤ q := h
      have h2 : ¬ (0 < q) := by simpa [gtZero] using hg
      have : q = 0 := le_antisymm (not_lt.mp h2) h1
      rw [this]
      simp [JSNumber.abs]
  | nan => exact absurd h (by simp [AtLeast])
  | posInf => simp [gtZero] at hg
  | negInf => exact absurd h (by simp [AtLeast])

theorem seedStep_loss_zero (ds : List JSNumber) (g : JSNumber) (i : Nat)
    (h : AtLeast 0 (jsIndex ds i)) : (seedStep ds (g, fin 0) i).2 = fin 0 := by
  unfold seedStep
  by_cases hd : (jsIndex ds i).gtZero = true
  · simp only [hd, if_true]
  · have hd2 : (jsIndex ds i).gtZero = false := by simpa using hd
    simp only [hd2, Bool.false_eq_true, if_false, abs_eq_zero_of_atLeast _ h hd2,
      fin_zero_add_fin_zero]

theorem seed_foldl_loss_zero (ds : List JSNumber) : ∀ n : Nat,
    (∀ i, i < n → AtLeast 0 (jsIndex ds i)) →
      ((List.range n).foldl (seedStep ds) (fin 0, fin 0)).2 = fin 0
  | 0, _ => rfl
  | n + 1, h => by
      have ih := seed_foldl_loss_zero ds n (fun i hi => h i (by omega))
      rw [List.range_succ, List.foldl_append]
      simp only [List.foldl_cons, List.foldl_nil]
      have e : (List.range n).foldl (seedStep ds) (fin 0, fin 0) =
          (((List.range n).foldl (seedStep ds) (fin 0, fin 0)).1, fin 0) :=
        Prod.ext rfl ih
      rw [e]
      exact seedStep_loss_zero ds _ n (h n (by omega))

theorem seedAverages_loss_zero (values : List ℚ) (p : Nat) (hp : 0 < p)
    (hN : p + 1 ≤ values.length)
    (hmono : ∀ i, i + 1 < values.length → values.getD i 0 ≤ values.getD (i + 1) 0) :
    (seedAverages values (p : Int)).2 = fin 0 := by
  have hne : ((p : Int) : ℚ) ≠ 0 := by exact_mod_cast hp.ne'
  have h := seed_foldl_loss_zero (deltas values) p (fun i hi => by
    rw [jsIndex_deltas values i (by omega)]
    exact deltaDouble_atLeast_zero values hmono i (by omega))
  unfold seedAverages seedSums
  rw [Int.toNat_ofNat]
  simp only [h, ofInt]
  exact fin_zero_div_fin hne

theorem smooth_loss_zero (p : Nat) (hp : 0 < p) (g d : JSNumber) (h : AtLeast 0 d) :
    (smooth (p : Int) (g, fin 0) d).2 = fin 0 := by
  have hne : ((p : Int) : ℚ) ≠ 0 := by exact_mod_cast hp.ne'
  unfold smooth
  by_cases hd : d.gtZero = true
  · simp only [hd, if_true, ofInt, fin_zero_mul_fin, fin_zero_add_fin_zero]
    exact fin_zero_div_fin hne
  · have hd2 : d.gtZero = false := by simpa using hd
    simp only [hd2, Bool.false_eq_true, if_false, abs_eq_zero_of_atLeast _ h hd2, ofInt,
      fin_zero_mul_fin, fin_zero_add_fin_zero]
    exact fin_zero_div_fin hne

theorem rsiVal_loss_zero (g : JSNumber) : rsiVal (g, fin 0) = fin 100 := by
  simp [rsiVal, isZero]

theorem roundFixed_two_hundred : roundFixed 2 100 = 100 := by
  norm_num [roundFixed]

theorem toFixed_hundred : toFixed (fin 100) 2 = fin 100 := by
  rw [toFixed_fin, roundFixed_two_hundred]
  exact isDouble_hundred

/-- With no decrease the main loop pushes `100` at every step. -/
theorem rsiLoop_loss_zero (p : Nat) (hp : 0 < p) :
    ∀ (ds : List JSNumber) (g : JSNumber), (∀ d ∈ ds, AtLeast 0 d) →
      rsiLoop (p : Int) (g, fin 0) ds = List.replicate ds.length (some (fin 100))
  | [], _, _ => rfl
  | d :: ds, g, h => by
      have hd := smooth_loss_zero p hp g d (h d (List.mem_cons_self _ _))
      have e : smooth (p : Int) (g, fin 0) d = ((smooth (p : Int) (g, fin 0) d).1, fin 0) :=
        Prod.ext rfl hd
      simp only [rsiLoop, List.length_cons, List.replicate_succ]
      rw [e, rsiVal_loss_zero, toFixed_hundred,
        rsiLoop_loss_zero p hp ds _ (fun x hx => h x (List.mem_cons_of_mem _ hx))]

/-- The result of `rsi` on a long enough input with no decrease. -/
theorem rsi_nondecreasing_eq (values : List ℚ) (p : Nat) (hp : 0 < p)
    (hN : p + 1 ≤ values.length)
    (hmono : ∀ i, i + 1 < values.length → values.getD i 0 ≤ values.getD (i + 1) 0) :
    rsi values (p : Int) =
      .ok (none :: (List.replicate p none ++
        List.replicate (values.length - 1 - p) (some (fin 100)))) := by
  have hs := seedAverages_loss_zero values p hp hN hmono
  have e : seedAverages values (p : Int) = ((seedAverages values (p : Int)).1, fin 0) :=
    Prod.ext rfl hs
  rw [rsi_long values p hN, e, rsiLoop_loss_zero p hp _ _ (fun d hd => by
    obtain ⟨j, hj, rfl⟩ := mem_drop_deltas values p d hd
    exact deltaDouble_atLeast_zero values hmono j hj), List.length_drop, deltas_length]

end ChartUtils

/-! ## Claims about `rsi` on inputs with no decrease -/

namespace ChartUtils

open JSNumber

/-- C6, refuted as stated: for `values = [1, 2, 3]` and `period = 1` the entry at
index `period` is absent, not `100`. -/
theorem rsi_nondecreasing_index_period_absent :
    (0 : Int) < 1 ∧ 1 + 2 ≤ ([1, 2, 3] : List ℚ).length ∧
    rsi [1, 2, 3] 1 = .ok [none, none, some (fin 100)] ∧
    ¬ ∃ out, rsi [1, 2, 3] 1 = .ok out ∧ out[1]? = some (some (fin 100)) := by
  have h : rsi [1, 2, 3] 1 = .ok [none, none, some (fin 100)] := by decide!
  refine ⟨by decide, by decide, h, ?_⟩
  rintro ⟨out, h1, h2⟩
  rw [h] at h1
  cases h1
  simp at h2

/-- C6, amended: for a positive `period` and an input of length `N ≥ period + 2`
in which no value is smaller than its predecessor, `rsi(values, period)[i] = 100`
for every index `i` with `period + 1 ≤ i < N`. -/
theorem rsi_nondecreasing (values : List ℚ) (period : Nat) (hp : 0 < period)
    (hN : period + 2 ≤ values.length)
    (hmono : ∀ i, i + 1 < values.length → values.getD i 0 ≤ values.getD (i + 1) 0) :
    ∃ out, rsi values (period : Int) = .ok out ∧
      ∀ i, period + 1 ≤ i → i < values.length → out[i]? = some (some (fin 100)) := by
  refine ⟨_, rsi_nondecreasing_eq values period hp (by omega) hmono, ?_⟩
  intro i hi1 hi2
  obtain ⟨k, rfl⟩ : ∃ k, i = k + 1 := ⟨i - 1, by omega⟩
  rw [rsi_long_getElem?_late period k (by omega)]
  have : k - period < values.length - 1 - period := by omega
  simp [List.getElem?_replicate, this]

/-- Instance of the amended C6 at `values = [1, 2, 2, 4]`, `period = 1`. -/
theorem rsi_nondecreasing_witness :
    (0 < 1 ∧ 1 + 2 ≤ ([1, 2, 2, 4] : List ℚ).length) ∧
    ∃ out, rsi [1, 2, 2, 4] ((1 : Nat) : Int) = .ok out ∧
      ∀ i, 1 + 1 ≤ i → i < ([1, 2, 2, 4] : List ℚ).length →
        out[i]? = some (some (fin 100)) :=
  ⟨by decide,
    rsi_nondecreasing [1, 2, 2, 4] 1 (by decide) (by decide) (by
      intro i hi
      have hi2 : i < 3 := by
        simp only [List.length_cons, List.length_nil] at hi
        omega
      interval_cases i <;> norm_num)⟩

/-- C14: for a positive `period` and an input with no decrease (a constant series
included), every non-absent element of `rsi(values, period)` equals `100`. -/
theorem rsi_nondecreasing_all (values : List ℚ) (period : Nat) (hp : 0 < period)
    (hmono : ∀ i, i + 1 < values.length → values.getD i 0 ≤ values.getD (i + 1) 0) :
    ∃ out, rsi values (period : Int) = .ok out ∧
      ∀ x ∈ out, x ≠ none → x = some (fin 100) := by
  by_cases h : period + 1 ≤ values.length
  · refine ⟨_, rsi_nondecreasing_eq values period hp h hmono, ?_⟩
    intro x hx hne
    rcases List.mem_cons.mp hx with rfl | hx
    · exact absurd rfl hne
    · rcases List.mem_append.mp hx with hx | hx
      · exact absurd (List.eq_of_mem_replicate hx) hne
      · exact List.eq_of_mem_replicate hx
  · refine ⟨_, rsi_short values period (by omega), ?_⟩
    intro x hx hne
    exact absurd (List.eq_of_mem_replicate hx) hne

/-- Instance of C14 at the constant series `values = [5, 5, 5, 5]`, `period = 1`. -/
theorem rsi_nondecreasing_all_witness :
    0 < 1 ∧
    ∃ out, rsi [5, 5, 5, 5] ((1 : Nat) : Int) = .ok out ∧
      ∀ x ∈ out, x ≠ none → x = some (fin 100) :=
  ⟨by decide,
    rsi_nondecreasing_all [5, 5, 5, 5] 1 (by decide) (by
      intro i hi
      have hi2 : i < 3 := by
        simp only [List.length_cons, List.length_nil] at hi
        omega
      interval_cases i <;> norm_num)⟩

/-- The constant series of C14, evaluated: `rsi([5, 5, 5, 5], 1)` is
`[null, null, 100, 100]`. -/
theorem rsi_constant_example :
    rsi [5, 5, 5, 5] 1 = .ok [none, none, some (fin 100), some (fin 100)] := by
  decide!

end ChartUtils

/-! ## Facts about `rsi` on strictly decreasing inputs -/

namespace ChartUtils

open JSNumber

theorem minSubnormal_pos : 0 < minSubnormal := two_zpow_pos _

theorem minSubnormal_le_one : minSubnormal ≤ 1 := by
  unfold minSubnormal
  exact zpow_le_one_of_nonpos₀ (by norm_num) (by norm_num)

theorem isDouble_maxDouble : IsDouble maxDouble := by decide!

theorem isDouble_neg_maxDouble : IsDouble (-maxDouble) := by decide!

theorem isDouble_nat_mul_min (k : Nat) (hk : k < 2 ^ 53) :
    IsDouble ((k : ℚ) * minSubnormal) := by
  have h := isDouble_of_mul_zpow (k : ℤ) (-1074) (by
    rw [abs_of_nonneg (by omega)]
    exact_mod_cast hk) (le_refl _) (by
    have h1 : (k : ℚ) < 2 ^ 53 := by exact_mod_cast hk
    have h2 := minSubnormal_pos
    have h3 := minSubnormal_le_one
    unfold minSubnormal at h2 h3
    have h4 : (0 : ℚ) ≤ (k : ℚ) := Nat.cast_nonneg k
    rw [Int.cast_natCast, abs_of_nonneg (mul_nonneg h4 h2.le)]
    have h5 : (k : ℚ) * (2 : ℚ) ^ (-1074 : ℤ) ≤ (k : ℚ) * 1 :=
      mul_le_mul_of_nonneg_left h3 h4
    have h6 : (2 : ℚ) ^ 53 < (2 : ℚ) ^ (1024 : ℕ) := by norm_num
    linarith)
  simpa [minSubnormal] using h

theorem isDouble_minSubnormal : IsDouble minSubnormal := by
  have := isDouble_nat_mul_min 1 (by norm_num)
  simpa using this

theorem isDouble_neg_minSubnormal : IsDouble (-minSubnormal) := by
  have h := isDouble_of_mul_zpow (-1) (-1074) (by norm_num) (le_refl _) (by
    have h2 := minSubnormal_pos
    have h3 := minSubnormal_le_one
    unfold minSubnormal at h2 h3
    have e : |((-1 : ℤ) : ℚ) * (2 : ℚ) ^ (-1074 : ℤ)| = (2 : ℚ) ^ (-1074 : ℤ) := by
      rw [abs_mul, abs_of_pos h2]
      norm_num
    rw [e]
    have h6 : (1 : ℚ) < (2 : ℚ) ^ (1024 : ℕ) := by norm_num
    linarith)
  simpa [minSubnormal] using h

/-- Every double is a whole multiple of the smallest positive double. -/
theorem isDouble_multiple (v : ℚ) (h : IsDouble v) : ∃ m : ℤ, v = (m : ℚ) * minSubnormal := by
  obtain ⟨hr, _⟩ := (isDouble_iff v).mp h
  refine ⟨roundHalfEven (v / (2 : ℚ) ^ quantumExp v) *
    (2 : ℤ) ^ (quantumExp v - (-1074)).toNat, ?_⟩
  conv_lhs => rw [← hr]
  unfold roundToQuantum minSubnormal
  rw [two_zpow_split (quantumExp v) (-1074) (quantumExp_ge v)]
  push_cast
  ring

/-- Two distinct doubles differ by at least the smallest positive double. -/
theorem minSubnormal_le_sub (a b : ℚ) (ha : IsDouble a) (hb : IsDouble b) (h : b < a) :
    minSubnormal ≤ a - b := by
  obtain ⟨m, rfl⟩ := isDouble_multiple a ha
  obtain ⟨n, rfl⟩ := isDouble_multiple b hb
  have hu := minSubnormal_pos
  have hlt : (n : ℚ) < (m : ℚ) := lt_of_mul_lt_mul_right h hu.le
  have hint : n + 1 ≤ m := by exact_mod_cast hlt
  have hq : (n : ℚ) + 1 ≤ (m : ℚ) := by exact_mod_cast hint
  nlinarith

theorem atLeast_add (a b : ℚ) (x y : JSNumber) (hx : AtLeast a x) (hy : AtLeast b y)
    (hab : IsDouble (a + b)) : AtLeast (a + b) (x + y) := by
  cases x <;> cases y <;> try trivial
  exact atLeast_roundDouble _ _ hab (add_le_add hx hy)

theorem atLeast_mul_fin (a k : ℚ) (x : JSNumber) (hk : 0 < k) (hx : AtLeast a x)
    (hak : IsDouble (a * k)) : AtLeast (a * k) (x * fin k) := by
  cases x with
  | fin q => exact atLeast_roundDouble _ _ hak (mul_le_mul_of_nonneg_right hx hk.le)
  | nan => exact hx
  | posInf =>
      show AtLeast (a * k) (if k = 0 then nan else if 0 < k then posInf else negInf)
      rw [if_neg hk.ne', if_pos hk]
      trivial
  | negInf => exact False.elim hx

theorem atLeast_div_fin (a k : ℚ) (x : JSNumber) (hk : 0 < k) (hx : AtLeast (a * k) x)
    (ha : IsDouble a) : AtLeast a (x / fin k) := by
  cases x with
  | fin q =>
      rw [fin_div_fin_of_ne _ hk.ne']
      apply atLeast_roundDouble _ _ ha
      rw [le_div_iff₀ hk]
      exact hx
  | nan => exact hx
  | posInf =>
      show AtLeast a (if 0 ≤ k then posInf else negInf)
      rw [if_pos hk.le]
      trivial
  | negInf => exact False.elim hx

theorem gtZero_of_atMost (c : ℚ) (d : JSNumber) (hc : c ≤ 0) (h : AtMost c d) :
    d.gtZero = false := by
  cases d with
  | fin q =>
      have : q ≤ c := h
      simp [gtZero]
      linarith
  | nan => rfl
  | posInf => exact absurd h (by simp [AtMost])
  | negInf => rfl

theorem abs_atLeast_of_atMost (c : ℚ) (d : JSNumber) (hc : 0 ≤ c) (h : AtMost (-c) d) :
    AtLeast c d.abs := by
  cases d with
  | fin q =>
      have h1 : q ≤ -c := h
      show c ≤ |q|
      rw [abs_of_nonpos (by linarith)]
      linarith
  | nan => exact absurd h (by simp [AtMost])
  | posInf => trivial
  | negInf => trivial

theorem abs_atMost_of_atLeast (m : ℚ) (d : JSNumber) (h1 : AtMost 0 d) (h2 : AtLeast (-m) d) :
    AtMost m d.abs := by
  cases d with
  | fin q =>
      have a1 : q ≤ 0 := h1
      have a2 : -m ≤ q := h2
      show |q| ≤ m
      rw [abs_of_nonpos a1]
      linarith
  | nan => exact absurd h1 (by simp [AtMost])
  | posInf => exact absurd h1 (by simp [AtMost])
  | negInf => exact absurd h2 (by simp [AtLeast])

theorem atMost_mono (a b : ℚ) (d : JSNumber) (hab : a ≤ b) (h : AtMost a d) : AtMost b d := by
  cases d with
  | fin q => exact le_trans h hab
  | nan => exact h
  | posInf => exact h
  | negInf => trivial

theorem deltaBound_deltaDouble (values : List ℚ) (p : Nat)
    (hmono : ∀ i, i + 1 < values.length → values.getD (i + 1) 0 < values.getD i 0)
    (hdouble : ∀ v ∈ values, IsDouble v)
    (hfin : 2 ≤ p ∨ ∀ i, i + 1 < values.length →
      values.getD i 0 - values.getD (i + 1) 0 ≤ maxDouble)
    (j : Nat) (hj : j + 1 < values.length) : DeltaBound p (deltaDouble values j) := by
  have hget : ∀ i, i < values.length → IsDouble (values.getD i 0) := by
    intro i hi
    rw [List.getD_eq_getElem?_getD, List.getElem?_eq_getElem hi]
    exact hdouble _ (List.getElem_mem hi)
  have hd : delta values j ≤ -minSubnormal := by
    have := minSubnormal_le_sub _ _ (hget j (by omega)) (hget (j + 1) hj) (hmono j hj)
    unfold delta
    linarith
  rw [deltaDouble_eq]
  refine ⟨atMost_roundDouble _ _ isDouble_neg_minSubnormal hd, ?_⟩
  intro hp1
  rcases hfin with h2 | hb
  · omega
  · apply atLeast_roundDouble _ _ isDouble_neg_maxDouble
    have := hb j hj
    unfold delta
    linarith

/-- In the seed loop on a decreasing input the gains stay `0` and the losses
grow by at least the smallest positive double at each step. -/
theorem seed_foldl_dec (ds : List JSNumber) : ∀ n : Nat, n < 2 ^ 53 →
    (∀ i, i < n → AtMost (-minSubnormal) (jsIndex ds i)) →
      ((List.range n).foldl (seedStep ds) (fin 0, fin 0)).1 = fin 0 ∧
      AtLeast ((n : ℚ) * minSubnormal) ((List.range n).foldl (seedStep ds) (fin 0, fin 0)).2
  | 0, _, _ => ⟨rfl, by simp [AtLeast]⟩
  | n + 1, hn, h => by
      obtain ⟨ih1, ih2⟩ := seed_foldl_dec ds n (by omega) (fun i hi => h i (by omega))
      have hd := h n (by omega)
      have hg := gtZero_of_atMost _ _ (by linarith [minSubnormal_pos]) hd
      rw [List.range_succ, List.foldl_append]
      simp only [List.foldl_cons, List.foldl_nil, seedStep, hg, Bool.false_eq_true, if_false]
      refine ⟨ih1, ?_⟩
      have e : ((n + 1 : ℕ) : ℚ) * minSubnormal = (n : ℚ) * minSubnormal + minSubnormal := by
        push_cast
        ring
      rw [e]
      apply atLeast_add _ _ _ _ ih2 (abs_atLeast_of_atMost _ _ minSubnormal_pos.le hd)
      rw [← e]
      exact isDouble_nat_mul_min (n + 1) hn

end ChartUtils

namespace ChartUtils

open JSNumber

theorem atMost_zero_add (m : ℚ) (y : JSNumber) (hy : AtMost m y) (hm : IsDouble m) :
    AtMost m (fin 0 + y) := by
  cases y with
  | fin q =>
      rw [fin_add_fin]
      apply atMost_roundDouble _ _ hm
      rw [zero_add]
      exact hy
  | nan => exact False.elim hy
  | posInf => exact False.elim hy
  | negInf => trivial

theorem atMost_div_one (m : ℚ) (x : JSNumber) (hx : AtMost m x) (hm : IsDouble m) :
    AtMost m (x / fin 1) := by
  cases x with
  | fin q =>
      rw [fin_div_fin_of_ne _ one_ne_zero]
      apply atMost_roundDouble _ _ hm
      rw [div_one]
      exact hx
  | nan => exact False.elim hx
  | posInf => exact False.elim hx
  | negInf =>
      show AtMost m (if (0 : ℚ) ≤ 1 then negInf else posInf)
      rw [if_pos zero_le_one]
      trivial

theorem fin_mul_fin_zero (w : ℚ) : fin w * fin 0 = fin 0 := by
  rw [fin_mul_fin, mul_zero, roundDouble_zero]

theorem ofInt_natCast (p : Nat) : ofInt (p : Int) = fin (p : ℚ) := by
  simp [ofInt]

theorem ofInt_natCast_pred (p : Nat) : ofInt ((p : Int) - 1) = fin ((p : ℚ) - 1) := by
  simp [ofInt]

/-- The part of one smoothing step that updates `avgLoss` on a decreasing
input keeps the bound. -/
theorem lossBound_step (p : Nat) (hp : 0 < p) (hp53 : p < 2 ^ 53) (l a : JSNumber)
    (hl : LossBound p l) (ha1 : AtLeast minSubnormal a) (ha2 : p = 1 → AtMost maxDouble a) :
    LossBound p ((l * ofInt ((p : Int) - 1) + a) / ofInt (p : Int)) := by
  have hu := minSubnormal_pos
  have hpq : (0 : ℚ) < (p : ℚ) := by exact_mod_cast hp
  rw [ofInt_natCast, ofInt_natCast_pred]
  by_cases h1 : p = 1
  · subst h1
    obtain ⟨w, rfl, _, _⟩ := fin_of_atLeast_atMost _ _ l hl.1 (hl.2 rfl)
    have e0 : (((1 : ℕ) : ℚ) - 1) = 0 := by norm_num
    rw [e0, fin_mul_fin_zero, Nat.cast_one]
    refine ⟨?_, fun _ => atMost_div_one _ _ (atMost_zero_add _ _ (ha2 rfl) isDouble_maxDouble)
      isDouble_maxDouble⟩
    apply atLeast_div_fin _ _ _ one_pos _ isDouble_minSubnormal
    have h0 : AtLeast 0 (fin 0) := le_refl (0 : ℚ)
    have := atLeast_add 0 minSubnormal _ _ h0 ha1 (by rw [zero_add]; exact isDouble_minSubnormal)
    rw [zero_add] at this
    rw [mul_one]
    exact this
  · have hp2 : 2 ≤ p := by omega
    have hk : (0 : ℚ) < (p : ℚ) - 1 := by
      have : (2 : ℚ) ≤ (p : ℚ) := by exact_mod_cast hp2
      linarith
    have ecast : ((p - 1 : ℕ) : ℚ) = (p : ℚ) - 1 := by
      rw [Nat.cast_sub (by omega)]
      simp
    have d1 : IsDouble (minSubnormal * ((p : ℚ) - 1)) := by
      rw [← ecast, mul_comm]
      exact isDouble_nat_mul_min (p - 1) (by omega)
    have d2 : IsDouble (minSubnormal * ((p : ℚ) - 1) + minSubnormal) := by
      have e : minSubnormal * ((p : ℚ) - 1) + minSubnormal = (p : ℚ) * minSubnormal := by ring
      rw [e]
      exact isDouble_nat_mul_min p hp53
    have s1 := atLeast_mul_fin minSubnormal ((p : ℚ) - 1) l hk hl.1 d1
    have s2 := atLeast_add _ _ _ _ s1 ha1 d2
    have e : minSubnormal * ((p : ℚ) - 1) + minSubnormal = minSubnormal * (p : ℚ) := by ring
    rw [e] at s2
    exact ⟨atLeast_div_fin _ _ _ hpq s2 isDouble_minSubnormal, fun h => absurd h h1⟩

theorem smooth_dec (p : Nat) (hp : 0 < p) (hp53 : p < 2 ^ 53) (l d : JSNumber)
    (hl : LossBound p l) (hd : DeltaBound p d) :
    (smooth (p : Int) (fin 0, l) d).1 = fin 0 ∧ LossBound p (smooth (p : Int) (fin 0, l) d).2 := by
  have hu := minSubnormal_pos
  have hne : ((p : Int) : ℚ) ≠ 0 := by exact_mod_cast hp.ne'
  have hg := gtZero_of_atMost _ _ (by linarith) hd.1
  unfold smooth
  simp only [hg, Bool.false_eq_true, if_false]
  constructor
  · simp only [ofInt, fin_zero_mul_fin, fin_zero_add_fin_zero]
    exact fin_zero_div_fin hne
  · exact lossBound_step p hp hp53 l _ hl (abs_atLeast_of_atMost _ _ hu.le hd.1)
      (fun h1 => abs_atMost_of_atLeast _ _
        (atMost_mono _ _ _ (by linarith) hd.1) (hd.2 h1))

theorem seedAverages_dec (values : List ℚ) (p : Nat) (hp : 0 < p) (hp53 : p < 2 ^ 53)
    (hN : p + 1 ≤ values.length)
    (hD : ∀ j, j + 1 < values.length → DeltaBound p (deltaDouble values j)) :
    (seedAverages values (p : Int)).1 = fin 0 ∧ LossBound p (seedAverages values (p : Int)).2 := by
  have hu := minSubnormal_pos
  have hpq : (0 : ℚ) < (p : ℚ) := by exact_mod_cast hp
  have hne : ((p : Int) : ℚ) ≠ 0 := by exact_mod_cast hp.ne'
  obtain ⟨f1, f2⟩ := seed_foldl_dec (deltas values) p hp53 (fun i hi => by
    rw [jsIndex_deltas values i (by omega)]
    exact (hD i (by omega)).1)
  unfold seedAverages seedSums
  rw [Int.toNat_ofNat]
  constructor
  · simp only [f1, ofInt]
    exact fin_zero_div_fin hne
  · rw [ofInt_natCast]
    refine ⟨atLeast_div_fin _ _ _ hpq (by rw [mul_comm]; exact f2) isDouble_minSubnormal, ?_⟩
    intro h1
    subst h1
    have hd := hD 0 (by omega)
    have hg := gtZero_of_atMost _ _ (by linarith) hd.1
    have e : (List.range 1).foldl (seedStep (deltas values)) (fin 0, fin 0) =
        (fin 0, fin 0 + (deltaDouble values 0).abs) := by
      simp [List.range_succ, seedStep, jsIndex_deltas values 0 (by omega), hg]
    rw [e, Nat.cast_one]
    exact atMost_div_one _ _ (atMost_zero_add _ _ (abs_atMost_of_atLeast _ _
      (atMost_mono _ _ _ (by linarith) hd.1) (hd.2 rfl)) isDouble_maxDouble) isDouble_maxDouble

theorem rsiVal_dec (l : JSNumber) (h : AtLeast minSubnormal l) : rsiVal (fin 0, l) = fin 0 := by
  have hu := minSubnormal_pos
  have chain : fin 100 - fin 100 / (fin 1 + fin 0) = fin 0 := by
    have e1 : fin 1 + fin 0 = fin 1 := by
      rw [fin_add_fin, add_zero]
      exact isDouble_one
    have e2 : fin 100 / fin 1 = fin 100 := by
      rw [fin_div_fin_of_ne _ one_ne_zero, div_one]
      exact isDouble_hundred
    rw [e1, e2, fin_sub_fin, sub_self, roundDouble_zero]
  cases l with
  | fin w =>
      have hw : minSubnormal ≤ w := h
      have hne : w ≠ 0 := by linarith
      simp only [rsiVal, isZero, hne, decide_False, Bool.false_eq_true, if_false,
        fin_zero_div_fin hne]
      exact chain
  | nan => exact False.elim h
  | posInf =>
      have e : fin 0 / posInf = fin 0 := rfl
      simp only [rsiVal, isZero, Bool.false_eq_true, if_false, e]
      exact chain
  | negInf => exact False.elim h

/-- On a decreasing input the main loop pushes `0` at every step. -/
theorem rsiLoop_dec (p : Nat) (hp : 0 < p) (hp53 : p < 2 ^ 53) :
    ∀ (ds : List JSNumber) (l : JSNumber), LossBound p l → (∀ d ∈ ds, DeltaBound p d) →
      rsiLoop (p : Int) (fin 0, l) ds = List.replicate ds.length (some (fin 0))
  | [], _, _, _ => rfl
  | d :: ds, l, hl, h => by
      obtain ⟨s1, s2⟩ := smooth_dec p hp hp53 l d hl (h d (List.mem_cons_self _ _))
      have e : smooth (p : Int) (fin 0, l) d = (fin 0, (smooth (p : Int) (fin 0, l) d).2) :=
        Prod.ext s1 rfl
      simp only [rsiLoop, List.length_cons, List.replicate_succ]
      rw [e, rsiVal_dec _ s2.1, toFixed_fin_zero,
        rsiLoop_dec p hp hp53 ds _ s2 (fun x hx => h x (List.mem_cons_of_mem _ hx))]

/-- The result of `rsi` on a long enough strictly decreasing input of doubles. -/
theorem rsi_decreasing_eq (values : List ℚ) (p : Nat) (hp : 0 < p)
    (hN : p + 1 ≤ values.length)
    (hmono : ∀ i, i + 1 < values.length → values.getD (i + 1) 0 < values.getD i 0)
    (hdouble : ∀ v ∈ values, IsDouble v) (hlen : values.length < 2 ^ 32)
    (hfin : 2 ≤ p ∨ ∀ i, i + 1 < values.length →
      values.getD i 0 - values.getD (i + 1) 0 ≤ maxDouble) :
    rsi values (p : Int) =
      .ok (none :: (List.replicate p none ++
        List.replicate (values.length - 1 - p) (some (fin 0)))) := by
  have hp53 : p < 2 ^ 53 := by
    have : (2 : ℕ) ^ 32 ≤ 2 ^ 53 := by norm_num
    omega
  have hD := deltaBound_deltaDouble values p hmono hdouble hfin
  obtain ⟨s1, s2⟩ := seedAverages_dec values p hp hp53 hN hD
  have e : seedAverages values (p : Int) = (fin 0, (seedAverages values (p : Int)).2) :=
    Prod.ext s1 rfl
  rw [rsi_long values p hN, e, rsiLoop_dec p hp hp53 _ _ s2 (fun d hd => by
    obtain ⟨j, hj, rfl⟩ := mem_drop_deltas values p d hd
    exact hD j hj), List.length_drop, deltas_length]

end ChartUtils

/-! ## Claims about `rsi` on strictly decreasing inputs -/

namespace ChartUtils

open JSNumber

/-- C7, refuted as stated: for `values = [3, 2, 1]` and `period = 1` the entry at
index `period` is absent, not `0`; and for the strictly decreasing doubles
`[2^1023, -2^1023, -(3 * 2^1022)]` with `period = 1` the first difference
overflows to `-Infinity`, the smoothing step computes `Infinity * 0`, and the
entry at index 2 is `NaN`, not `0`. -/
theorem rsi_decreasing_index_period_absent :
    (0 : Int) < 1 ∧ 1 + 2 ≤ ([3, 2, 1] : List ℚ).length ∧
    rsi [3, 2, 1] 1 = .ok [none, none, some (fin 0)] ∧
    (¬ ∃ out, rsi [3, 2, 1] 1 = .ok out ∧ out[1]? = some (some (fin 0))) ∧
    (∀ v ∈ ([2 ^ 1023, -2 ^ 1023, -(3 * 2 ^ 1022)] : List ℚ), IsDouble v) ∧
    rsi [2 ^ 1023, -2 ^ 1023, -(3 * 2 ^ 1022)] 1 = .ok [none, none, some nan] := by
  have h : rsi [3, 2, 1] 1 = .ok [none, none, some (fin 0)] := by decide!
  refine ⟨by decide, by decide, h, ?_, by decide!, by decide!⟩
  rintro ⟨out, h1, h2⟩
  rw [h] at h1
  cases h1
  simp at h2

/-- C7, amended: for a positive `period` and a strictly decreasing sequence of
doubles of length `N ≥ period + 2` (below the array limit `2^32`), provided
`period ≥ 2` or no difference of consecutive values exceeds the largest double,
`rsi(values, period)[i] = 0` for every index `i` with `period + 1 ≤ i < N`. -/
theorem rsi_decreasing (values : List ℚ) (period : Nat) (hp : 0 < period)
    (hN : period + 2 ≤ values.length)
    (hmono : ∀ i, i + 1 < values.length → values.getD (i + 1) 0 < values.getD i 0)
    (hdouble : ∀ v ∈ values, IsDouble v) (hlen : values.length < 2 ^ 32)
    (hfin : 2 ≤ period ∨ ∀ i, i + 1 < values.length →
      values.getD i 0 - values.getD (i + 1) 0 ≤ maxDouble) :
    ∃ out, rsi values (period : Int) = .ok out ∧
      ∀ i, period + 1 ≤ i → i < values.length → out[i]? = some (some (fin 0)) := by
  refine ⟨_, rsi_decreasing_eq values period hp (by omega) hmono hdouble hlen hfin, ?_⟩
  intro i hi1 hi2
  obtain ⟨k, rfl⟩ : ∃ k, i = k + 1 := ⟨i - 1, by omega⟩
  rw [rsi_long_getElem?_late period k (by omega)]
  have : k - period < values.length - 1 - period := by omega
  simp [List.getElem?_replicate, this]

/-- Instance of the amended C7 at `values = [9, 7, 4, 1]`, `period = 1`. -/
theorem rsi_decreasing_witness :
    (0 < 1 ∧ 1 + 2 ≤ ([9, 7, 4, 1] : List ℚ).length) ∧
    ∃ out, rsi [9, 7, 4, 1] ((1 : Nat) : Int) = .ok out ∧
      ∀ i, 1 + 1 ≤ i → i < ([9, 7, 4, 1] : List ℚ).length →
        out[i]? = some (some (fin 0)) :=
  ⟨by decide,
    rsi_decreasing [9, 7, 4, 1] 1 (by decide) (by decide) (by
      intro i hi
      have hi2 : i < 3 := by
        simp only [List.length_cons, List.length_nil] at hi
        omega
      interval_cases i <;> norm_num) (by decide!) (by norm_num) (Or.inr (by
      intro i hi
      have hi2 : i < 3 := by
        simp only [List.length_cons, List.length_nil] at hi
        omega
      interval_cases i <;> norm_num [maxDouble]))⟩

/-- C15, refuted as stated: for the strictly decreasing doubles
`[2^1023, -2^1023, -(3 * 2^1022)]` and `period = 1` the first difference
overflows to `-Infinity`, the smoothing step computes `Infinity * 0`, and the
only non-absent entry is `NaN`, not `0`. -/
theorem rsi_decreasing_overflow_gives_nan :
    (∀ v ∈ ([2 ^ 1023, -2 ^ 1023, -(3 * 2 ^ 1022)] : List ℚ), IsDouble v) ∧
    (-2 ^ 1023 : ℚ) < 2 ^ 1023 ∧ (-(3 * 2 ^ 1022) : ℚ) < -2 ^ 1023 ∧
    rsi [2 ^ 1023, -2 ^ 1023, -(3 * 2 ^ 1022)] 1 = .ok [none, none, some nan] ∧
    ¬ ∃ out, rsi [2 ^ 1023, -2 ^ 1023, -(3 * 2 ^ 1022)] 1 = .ok out ∧
      ∀ x ∈ out, x ≠ none → x = some (fin 0) := by
  have h : rsi [2 ^ 1023, -2 ^ 1023, -(3 * 2 ^ 1022)] 1 = .ok [none, none, some nan] := by
    decide!
  refine ⟨by decide!, by norm_num, by norm_num, h, ?_⟩
  rintro ⟨out, h1, h2⟩
  rw [h] at h1
  have e := Except.ok.inj h1
  have := h2 (some nan) (by rw [← e]; simp) (by simp)
  simp at this

/-- C15, amended: for a positive `period` and a strictly decreasing sequence of
doubles (of length below the array limit `2^32`), provided `period ≥ 2` or no
difference of consecutive values exceeds the largest double, every non-absent
element of `rsi(values, period)` equals `0`. -/
theorem rsi_decreasing_all (values : List ℚ) (period : Nat) (hp : 0 < period)
    (hmono : ∀ i, i + 1 < values.length → values.getD (i + 1) 0 < values.getD i 0)
    (hdouble : ∀ v ∈ values, IsDouble v) (hlen : values.length < 2 ^ 32)
    (hfin : 2 ≤ period ∨ ∀ i, i + 1 < values.length →
      values.getD i 0 - values.getD (i + 1) 0 ≤ maxDouble) :
    ∃ out, rsi values (period : Int) = .ok out ∧
      ∀ x ∈ out, x ≠ none → x = some (fin 0) := by
  by_cases h : period + 1 ≤ values.length
  · refine ⟨_, rsi_decreasing_eq values period hp h hmono hdouble hlen hfin, ?_⟩
    intro x hx hne
    rcases List.mem_cons.mp hx with rfl | hx
    · exact absurd rfl hne
    · rcases List.mem_append.mp hx with hx | hx
      · exact absurd (List.eq_of_mem_replicate hx) hne
      · exact List.eq_of_mem_replicate hx
  · refine ⟨_, rsi_short values period (by omega), ?_⟩
    intro x hx hne
    exact absurd (List.eq_of_mem_replicate hx) hne

/-- Instance of the amended C15 at `values = [9, 7, 4, 1]`, `period = 2`. -/
theorem rsi_decreasing_all_witness :
    0 < 2 ∧
    ∃ out, rsi [9, 7, 4, 1] ((2 : Nat) : Int) = .ok out ∧
      ∀ x ∈ out, x ≠ none → x = some (fin 0) :=
  ⟨by decide,
    rsi_decreasing_all [9, 7, 4, 1] 2 (by decide) (by
      intro i hi
      have hi2 : i < 3 := by
        simp only [List.length_cons, List.length_nil] at hi
        omega
      interval_cases i <;> norm_num) (by decide!) (by norm_num) (Or.inl (le_refl 2))⟩

end ChartUtils

/-! ## Facts about `rsi`: the Wilder recurrence in double arithmetic -/

namespace ChartUtils

open JSNumber

theorem gain_term_eq (d : JSNumber) (h : d ≠ nan) :
    (if d.gtZero then d else fin 0) = JSNumber.max d (fin 0) := by
  cases d with
  | fin x =>
      by_cases hx : 0 < x
      · simp [gtZero, JSNumber.max, hx, max_eq_left hx.le]
      · simp [gtZero, JSNumber.max, hx, max_eq_right (not_lt.mp hx)]
  | nan => exact absurd rfl h
  | posInf => rfl
  | negInf => rfl

theorem loss_term_eq (d : JSNumber) (h : d ≠ nan) :
    (if d.gtZero then fin 0 else d.abs) = JSNumber.max (JSNumber.neg d) (fin 0) := by
  cases d with
  | fin x =>
      by_cases hx : 0 < x
      · have : max (-x) 0 = 0 := max_eq_right (by linarith)
        simp [gtZero, JSNumber.max, JSNumber.neg, hx, this]
      · have hx2 : x ≤ 0 := not_lt.mp hx
        have : max (-x) 0 = -x := max_eq_left (by linarith)
        simp [gtZero, JSNumber.max, JSNumber.neg, JSNumber.abs, hx, this, abs_of_nonpos hx2]
  | nan => exact absurd rfl h
  | posInf => rfl
  | negInf => rfl

theorem deltaDouble_ne_nan (values : List ℚ) (j : Nat) : deltaDouble values j ≠ nan := by
  rw [deltaDouble_eq]
  exact roundDouble_ne_nan _

theorem smooth_eq_max (period : Int) (avg : JSNumber × JSNumber) (d : JSNumber) (h : d ≠ nan) :
    smooth period avg d =
      ((avg.1 * ofInt (period - 1) + JSNumber.max d (fin 0)) / ofInt period,
       (avg.2 * ofInt (period - 1) + JSNumber.max (JSNumber.neg d) (fin 0)) / ofInt period) := by
  rw [← gain_term_eq d h, ← loss_term_eq d h]
  unfold smooth
  split <;> rfl

theorem canonical_foldl_add : ∀ (xs : List JSNumber) (acc : JSNumber), Canonical acc →
    Canonical (xs.foldl (fun a b => a + b) acc)
  | [], _, h => h
  | x :: xs, acc, _ => canonical_foldl_add xs (acc + x) (canonical_add acc x)

theorem canonical_sumDouble (xs : List JSNumber) : Canonical (sumDouble xs) :=
  canonical_foldl_add xs (fin 0) canonical_fin_zero

theorem sumDouble_range_succ (f : Nat → JSNumber) (n : Nat) :
    sumDouble ((List.range (n + 1)).map f) = sumDouble ((List.range n).map f) + f n := by
  unfold sumDouble
  rw [List.range_succ, List.map_append, List.foldl_append]
  rfl

/-- The seed loop computes the two sums of the specification. -/
theorem seed_foldl_eq_sums (values : List ℚ) : ∀ n : Nat, n + 1 ≤ values.length →
    (List.range n).foldl (seedStep (deltas values)) (fin 0, fin 0) =
      (sumDouble ((List.range n).map (fun j => JSNumber.max (deltaDouble values j) (fin 0))),
       sumDouble ((List.range n).map
        (fun j => JSNumber.max (JSNumber.neg (deltaDouble values j)) (fin 0))))
  | 0, _ => rfl
  | n + 1, h => by
      have ih := seed_foldl_eq_sums values n (by omega)
      have hne := deltaDouble_ne_nan values n
      rw [List.range_succ, List.foldl_append, ih, ← List.range_succ, sumDouble_range_succ,
        sumDouble_range_succ, ← gain_term_eq _ hne, ← loss_term_eq _ hne]
      simp only [List.foldl_cons, List.foldl_nil, seedStep, jsIndex_deltas values n (by omega)]
      split
      · rw [add_fin_zero _ (canonical_sumDouble _)]
      · rw [add_fin_zero _ (canonical_sumDouble _)]

theorem seedAverages_eq (values : List ℚ) (p : Nat) (h : p + 1 ≤ values.length) :
    seedAverages values (p : Int) = (seedGainDouble values p, seedLossDouble values p) := by
  unfold seedAverages seedSums seedGainDouble seedLossDouble
  rw [Int.toNat_ofNat, seed_foldl_eq_sums values p h]

theorem wilderGainDouble_of_lt (values : List ℚ) (p k : Nat) (h : k < p) :
    wilderGainDouble values p k = seedGainDouble values p := by
  cases k with
  | zero => rfl
  | succ k => simp [wilderGainDouble, h]

theorem wilderLossDouble_of_lt (values : List ℚ) (p k : Nat) (h : k < p) :
    wilderLossDouble values p k = seedLossDouble values p := by
  cases k with
  | zero => rfl
  | succ k => simp [wilderLossDouble, h]

theorem wilderGainDouble_succ (values : List ℚ) (p k : Nat) (h : p ≤ k + 1) :
    wilderGainDouble values p (k + 1) =
      (wilderGainDouble values p k * ofInt ((p : Int) - 1)
        + JSNumber.max (deltaDouble values (k + 1)) (fin 0)) / ofInt (p : Int) := by
  have h2 : ¬ (k + 1 < p) := by omega
  simp [wilderGainDouble, h2]

theorem wilderLossDouble_succ (values : List ℚ) (p k : Nat) (h : p ≤ k + 1) :
    wilderLossDouble values p (k + 1) =
      (wilderLossDouble values p k * ofInt ((p : Int) - 1)
        + JSNumber.max (JSNumber.neg (deltaDouble values (k + 1))) (fin 0))
        / ofInt (p : Int) := by
  have h2 : ¬ (k + 1 < p) := by omega
  simp [wilderLossDouble, h2]

/-- The states of the main loop started at delta index `k + 1` from
`(avgGain_k, avgLoss_k)` are the Wilder averages of the following indices. -/
theorem rsiStates_drop (values : List ℚ) (p : Nat) :
    ∀ (n k : Nat), p ≤ k + 1 → k + 1 + n + 1 = values.length →
      rsiStates (p : Int) (wilderGainDouble values p k, wilderLossDouble values p k)
          ((deltas values).drop (k + 1)) =
        (List.range n).map (fun j =>
          (wilderGainDouble values p (k + 1 + j), wilderLossDouble values p (k + 1 + j)))
  | 0, k, _, hn => by
      have hlen : (deltas values).length ≤ k + 1 := by
        rw [deltas_length]; omega
      rw [List.drop_eq_nil_of_le hlen]
      rfl
  | n + 1, k, hk, hn => by
      have hget : (deltas values)[k + 1]? = some (deltaDouble values (k + 1)) :=
        deltas_getElem? values (k + 1) (by omega)
      have hlt : k + 1 < (deltas values).length := by
        rw [deltas_length]; omega
      have hd : (deltas values).drop (k + 1) =
          deltaDouble values (k + 1) :: (deltas values).drop (k + 1 + 1) := by
        rw [List.drop_eq_getElem_cons hlt]
        congr 1
        rw [List.getElem?_eq_getElem hlt] at hget
        exact Option.some.inj hget
      rw [hd]
      simp only [rsiStates]
      rw [smooth_eq_max _ _ _ (deltaDouble_ne_nan values (k + 1)),
        ← wilderGainDouble_succ values p k hk, ← wilderLossDouble_succ values p k hk,
        rsiStates_drop values p n (k + 1) (by omega) (by omega), List.range_succ_eq_map]
      simp only [List.map_cons, List.map_map]
      refine congrArg₂ List.cons (by simp) ?_
      apply List.map_congr_left
      intro j _
      simp only [Function.comp, Nat.succ_eq_add_one]
      have : k + 1 + 1 + j = k + 1 + (j + 1) := by omega
      rw [this]

theorem rsiVal_eq_wilderRsiDouble (values : List ℚ) (p k : Nat) :
    rsiVal (wilderGainDouble values p k, wilderLossDouble values p k) =
      wilderRsiDouble values p k := by
  unfold rsiVal wilderRsiDouble
  split <;> rfl

/-- The result of `rsi` when the input is long enough, in terms of the Wilder
recurrence in double arithmetic. -/
theorem rsi_eq_wilderDouble (values : List ℚ) (p : Nat) (hp : 0 < p)
    (h : p + 1 ≤ values.length) :
    rsi values (p : Int) =
      .ok (none :: (List.replicate p none ++
        (List.range (values.length - 1 - p)).map (fun j =>
          some ((wilderRsiDouble values p (p + j)).toFixed 2)))) := by
  have hk : p - 1 + 1 = p := by omega
  have hstates := rsiStates_drop values p (values.length - 1 - p) (p - 1) (by omega) (by omega)
  rw [wilderGainDouble_of_lt values p (p - 1) (by omega),
    wilderLossDouble_of_lt values p (p - 1) (by omega), hk] at hstates
  rw [rsi_long values p h, seedAverages_eq values p h, rsiLoop_eq_map_states, hstates,
    List.map_map]
  congr 3
  apply List.map_congr_left
  intro j _
  simp only [Function.comp, rsiVal_eq_wilderRsiDouble]

end ChartUtils

/-! ## Claims about the Wilder recurrence -/

namespace ChartUtils

open JSNumber

/-- C2, refuted as stated: for the doubles `[46, 38, 57, 35, 45]`, `period = 3`
and `k = 3` the Wilder value over the reals is `53.125`, which rounds to `53.13`
at 2 decimal places, but double arithmetic gives a value below `53.125` and
`rsi` returns `53.12` at index 4. -/
theorem rsi_wilder_rounding_differs :
    (∀ v ∈ ([46, 38, 57, 35, 45] : List ℚ), IsDouble v) ∧
    rsi [46, 38, 57, 35, 45] 3 =
      .ok [none, none, none, none, some (roundDouble (5312 / 100))] ∧
    roundFixed 2 (wilderRsi [46, 38, 57, 35, 45] 3 3) = 5313 / 100 ∧
    roundDouble (5312 / 100) ≠ roundDouble (5313 / 100) ∧
    roundDouble (5312 / 100) ≠ fin (5313 / 100) := by
  refine ⟨by decide!, by decide!, by decide!, by decide!, by decide!⟩

/-- C2, amended: for a positive `period`, an input of length `N ≥ period + 2` and
a delta index `k` with `period ≤ k ≤ N - 2`, the entry `rsi(values, period)[k+1]`
is `100` when `avgLoss_k` is zero and `100 - 100/(1 + avgGain_k/avgLoss_k)`
otherwise, rounded to 2 decimal places by `toFixed`, where every operation is
made in double arithmetic: `delta[j] = values[j+1] - values[j]`, the seed is the
sum over `j < period` of `max(delta[j], 0)` (of `max(-delta[j], 0)` for the
loss) divided by `period`, and for `m ≥ period` the averages follow
`avg_m = (avg_{m-1} * (period - 1) + term_m) / period`. -/
theorem rsi_is_double_wilder_smoothing (values : List ℚ) (period : Nat) (hp : 0 < period)
    (hN : period + 2 ≤ values.length) (k : Nat) (hk1 : period ≤ k)
    (hk2 : k + 2 ≤ values.length) :
    (∃ out, rsi values (period : Int) = .ok out ∧
      out[k + 1]? = some (some (toFixed
        (if (wilderLossDouble values period k).isZero then fin 100
         else fin 100 - fin 100 /
          (fin 1 + wilderGainDouble values period k / wilderLossDouble values period k)) 2))) ∧
    wilderGainDouble values period (period - 1) =
      sumDouble ((List.range period).map
        (fun j => JSNumber.max (deltaDouble values j) (fin 0))) / ofInt (period : Int) ∧
    wilderLossDouble values period (period - 1) =
      sumDouble ((List.range period).map
        (fun j => JSNumber.max (JSNumber.neg (deltaDouble values j)) (fin 0)))
        / ofInt (period : Int) ∧
    (∀ m, period ≤ m →
      wilderGainDouble values period m =
        (wilderGainDouble values period (m - 1) * ofInt ((period : Int) - 1)
          + JSNumber.max (deltaDouble values m) (fin 0)) / ofInt (period : Int) ∧
      wilderLossDouble values period m =
        (wilderLossDouble values period (m - 1) * ofInt ((period : Int) - 1)
          + JSNumber.max (JSNumber.neg (deltaDouble values m)) (fin 0))
          / ofInt (period : Int)) ∧
    (∀ j, deltaDouble values j = fin (values.getD (j + 1) 0) - fin (values.getD j 0)) := by
  have _ := hN
  refine ⟨⟨_, rsi_eq_wilderDouble values period hp (by omega), ?_⟩, ?_, ?_, ?_, fun j => rfl⟩
  · have h1 : k - period < values.length - 1 - period := by omega
    have h2 : period + (k - period) = k := by omega
    rw [rsi_long_getElem?_late period k hk1]
    simp [List.getElem?_map, List.getElem?_range h1, h2, wilderRsiDouble]
  · exact wilderGainDouble_of_lt values period (period - 1) (by omega)
  · exact wilderLossDouble_of_lt values period (period - 1) (by omega)
  · intro m hm
    obtain ⟨n, rfl⟩ : ∃ n, m = n + 1 := ⟨m - 1, by omega⟩
    exact ⟨wilderGainDouble_succ values period n hm, wilderLossDouble_succ values period n hm⟩

/-- Instance of the amended C2 at `values = [1, 3, 2, 5, 4]`, `period = 2`,
`k = 2`. -/
theorem rsi_is_double_wilder_smoothing_witness :
    (0 < 2 ∧ 2 + 2 ≤ ([1, 3, 2, 5, 4] : List ℚ).length ∧ 2 ≤ 2) ∧
    ∃ out, rsi [1, 3, 2, 5, 4] ((2 : Nat) : Int) = .ok out ∧
      out[2 + 1]? = some (some (toFixed
        (if (wilderLossDouble [1, 3, 2, 5, 4] 2 2).isZero then fin 100
         else fin 100 - fin 100 /
          (fin 1 + wilderGainDouble [1, 3, 2, 5, 4] 2 2
            / wilderLossDouble [1, 3, 2, 5, 4] 2 2)) 2)) :=
  ⟨by decide,
    (rsi_is_double_wilder_smoothing [1, 3, 2, 5, 4] 2 (by decide) (by decide) 2 (by decide)
      (by decide)).1⟩

/-- A run of `rsi` with gains and losses: `rsi([1, 3, 2, 5, 4], 2)` is
`[null, null, null, 88.89, 61.54]`. -/
theorem rsi_mixed_example :
    rsi [1, 3, 2, 5, 4] 2 =
      .ok [none, none, none, some (roundDouble (8889 / 100)),
        some (roundDouble (6154 / 100))] := by
  decide!

end ChartUtils

/-! ## Claims about a non-positive period -/

namespace ChartUtils

open JSNumber

theorem smooth_nan (period : Int) (d : JSNumber) : smooth period (nan, nan) d = (nan, nan) := by
  unfold smooth
  split <;> simp only [nan_mul, nan_add, nan_div]

theorem rsiVal_nan : rsiVal (nan, nan) = nan := by
  simp only [rsiVal, isZero_nan, Bool.false_eq_true, if_false, nan_div, add_nan, div_nan,
    sub_nan]

theorem rsiLoop_nan (period : Int) :
    ∀ ds : List JSNumber, rsiLoop period (nan, nan) ds = List.replicate ds.length (some nan)
  | [] => rfl
  | d :: ds => by
      simp only [rsiLoop, smooth_nan, rsiVal_nan, toFixed_nan, rsiLoop_nan period ds,
        List.length_cons, List.replicate_succ]

/-- C9, refuted as stated: with `period = 0` the call `rsi([1, 2], 0)` does not
fail; it returns `[null, NaN]`. -/
theorem rsi_period_zero_returns :
    (0 : Int) ≤ 0 ∧ rsi [1, 2] 0 = .ok [none, some nan] ∧
      ¬ ∃ e, rsi [1, 2] 0 = .error e := by
  have h : rsi [1, 2] 0 = .ok [none, some nan] := by decide!
  refine ⟨le_refl 0, h, ?_⟩
  rintro ⟨e, he⟩
  rw [h] at he
  cases he

/-- C9, amended: for `period < 0`, `rsi(values, period)` fails: the allocation
`Array(period)` raises `RangeError` and no sequence is returned.  For
`period = 0` it returns a sequence as long as `values`: the empty one for an
empty input, and otherwise `null` followed by `NaN` entries. -/
theorem rsi_nonpositive_period (values : List ℚ) (period : Int) (hp : period ≤ 0) :
    (period < 0 → rsi values period = .error .rangeError) ∧
    (period = 0 → rsi values period =
      .ok (if values = [] then []
        else none :: List.replicate (values.length - 1) (some nan))) := by
  constructor
  · intro hneg
    have hguard : ¬ ((values.length : Int) < period + 1) := by omega
    simp [rsi, hguard, jsArrayFillNull, hneg]
  · intro h0
    subst h0
    by_cases hv : values = []
    · subst hv
      simp [rsi]
    · have hlen : 0 < values.length := List.length_pos.mpr hv
      have hguard : ¬ ((values.length : Int) < (0 : Int) + 1) := by omega
      have hseed : seedSums (deltas values) 0 = (fin 0, fin 0) := by
        simp [seedSums]
      have hnan : fin 0 / ofInt 0 = nan := by
        simp [ofInt, fin_div_fin]
      have hfill : jsArrayFillNull 0 = .ok [] := by
        simp [jsArrayFillNull]
      simp only [rsi, if_neg hguard, hseed, hnan, hfill, if_neg hv, Int.toNat_zero,
        List.drop_zero, List.nil_append, rsiLoop_nan, deltas_length]

/-- Instance of the amended C9 at `values = [1, 2]`, `period = -1`. -/
theorem rsi_nonpositive_period_witness :
    (-1 : Int) ≤ 0 ∧ (-1 : Int) < 0 ∧ rsi [1, 2] (-1) = .error .rangeError :=
  ⟨by decide, by decide, (rsi_nonpositive_period [1, 2] (-1) (by decide)).1 (by decide)⟩

/-! ## Further runs -/

/-- A run of `sma` whose sum loses a small term: `sma([0.0625, -2^-100], 2)` is
`[null, 0.0313]`, where the mean over the reals rounds to `0.0312`. -/
theorem sma_absorption_example :
    sma [1 / 16, -(1 / 2 ^ 100)] 2 = .ok [none, some (roundDouble (313 / 10000))] ∧
    roundFixed 4 (windowMean [1 / 16, -(1 / 2 ^ 100)] 2 1) = 312 / 10000 := by
  refine ⟨by decide!, by decide!⟩

/-- A run of `sma` whose sum overflows: `sma([2^1023, 2^1023], 2)` is
`[null, Infinity]`. -/
theorem sma_overflow_example :
    sma [2 ^ 1023, 2 ^ 1023] 2 = .ok [none, some posInf] := by
  decide!

/-- A leading part evaluated: `rsi([1, 3, 2, 5], 2)` is `[null, null, null, 88.89]`,
the first four entries of `rsi([1, 3, 2, 5, 4], 2)`. -/
theorem rsi_leading_part_example :
    rsi [1, 3, 2, 5] 2 = .ok [none, none, none, some (roundDouble (8889 / 100))] := by
  decide!

end ChartUtils
